import Mathlib

/-!
Verification of the localMind chunking / ingestion / retrieval core.

Text is modelled as `List Char`.  Whitespace is the ASCII whitespace set
matched by Python's `str.strip` and `re.split(r"\s+")` on ASCII input.
-/

set_option maxRecDepth 8192

/-- Python's whitespace test for the characters relevant here
(space, tab, newline, carriage return, vertical tab, form feed). -/
def isWS (c : Char) : Bool :=
  c = ' ' || c = '\t' || c = '\n' || c = '\r' || c = '\x0b' || c = '\x0c'

/-- All non-whitespace characters of a string, in order. -/
def filterNW (l : List Char) : List Char :=
  l.filter (fun c => !isWS c)

/-- Python function `str.strip()`: drop leading and trailing whitespace. -/
def strip (l : List Char) : List Char :=
  ((l.dropWhile isWS).reverse.dropWhile isWS).reverse

/-- Fuel-driven core of Python `str.split(sep)` (non-overlapping,
leftmost-first, keeping empty pieces).  `fuel ≥ s.length` makes the
fuel-exhaustion arm unreachable. -/
def pySplitAux (sep : List Char) : Nat → List Char → List (List Char)
  | _, [] => [[]]
  | 0, s => [s]
  | fuel + 1, c :: rest =>
    if sep.isPrefixOf (c :: rest) then
      [] :: pySplitAux sep fuel (List.drop sep.length (c :: rest))
    else
      match pySplitAux sep fuel rest with
      | [] => [[c]]
      | p :: ps => (c :: p) :: ps

/-- Python expression `s.split(sep)` for a non-empty separator. -/
def pySplit (sep s : List Char) : List (List Char) :=
  pySplitAux sep s.length s

/-- Fuel-driven core of Python `re.split(r"\s+", s)`: split on maximal
whitespace runs, keeping empty pieces at the two ends. -/
def reSplitWSAux : Nat → List Char → List (List Char)
  | _, [] => [[]]
  | 0, s => [s]
  | fuel + 1, c :: rest =>
    if isWS c then
      [] :: reSplitWSAux fuel (rest.dropWhile isWS)
    else
      match reSplitWSAux fuel rest with
      | [] => [[c]]
      | p :: ps => (c :: p) :: ps

/-- Python expression `re.split(r"\s+", s)`. -/
def reSplitWS (s : List Char) : List (List Char) :=
  reSplitWSAux s.length s

/-- The `add` values of `_chunk_text`'s inner loop for a separator level:
`part + sep` for every part except the last (`i < len(parts) - 1`). -/
def addsOf (sep : List Char) : List (List Char) → List (List Char)
  | [] => []
  | [p] => [p]
  | p :: q :: ps => (p ++ sep) :: addsOf sep (q :: ps)

/-- The `overlap_start` value of `_chunk_text`:
`"" if overlap <= 0 else current[-overlap:] if len(current) >= overlap else current`. -/
def ovStartOf (ov : Nat) (current : List Char) : List Char :=
  if ov = 0 then []
  else if ov ≤ current.length then current.drop (current.length - ov)
  else current

/-- One iteration of `_chunk_text`'s packing loop.  State: the
`new_chunks` appended so far for this segment, and `current`. -/
def packStep (size ov : Nat) (st : List (List Char) × List Char) (add : List Char) :
    List (List Char) × List Char :=
  if st.2.length + add.length ≤ size then (st.1, st.2 ++ add)
  else
    ((if st.2 = [] then st.1 else st.1 ++ [strip st.2]), ovStartOf ov st.2 ++ add)

/-- The packing loop of `_chunk_text` over the `add`s of one oversized segment,
including the trailing `if current.strip(): new_chunks.append(current.strip())`. -/
def packAdds (size ov : Nat) (adds : List (List Char)) : List (List Char) :=
  match adds.foldl (packStep size ov) ([], []) with
  | (acc, current) => if strip current = [] then acc else acc ++ [strip current]

/-- The `add` sequence of one oversized segment at a given separator level:
`c.split(sep)` with the separator re-appended, or `re.split(r"\s+", c)`
verbatim at the whitespace level (`sep == " "`). -/
def levelAdds : Option (List Char) → List Char → List (List Char)
  | some sep, c => addsOf sep (pySplit sep c)
  | none, c => reSplitWS c

/-- One pass of `_chunk_text`'s outer loop: segments that fit are kept,
oversized segments are split and re-packed. -/
def splitPass (size ov : Nat) (sep : Option (List Char)) (chunks : List (List Char)) :
    List (List Char) :=
  chunks.foldl
    (fun acc c =>
      if c.length ≤ size then acc ++ [c]
      else acc ++ packAdds size ov (levelAdds sep c))
    []

/-- The separator cascade `["\n\n", "\n", ". ", " "]`; `none` stands for the
whitespace level, which uses `re.split(r"\s+", ...)`. -/
def sepLevels : List (Option (List Char)) :=
  [some ['\n', '\n'], some ['\n'], some ['.', ' '], none]

/-- Function `_chunk_text(text, chunk_size, overlap)` from `localmind/ingest.py`. -/
def _chunk_text (text : List Char) (chunk_size overlap : Nat) : List (List Char) :=
  if strip text = [] then []
  else
    (sepLevels.foldl (fun cs sep => splitPass chunk_size overlap sep cs) [text]).filter
      (fun c => !(strip c).isEmpty)

/-! ## Metadata and document model (`load_pdf` / `load_text` produce these) -/

/-- Chunk metadata: optional `source` (file name) and optional 1-based `page`.
`load_pdf` sets both, `load_text` only `source`; `build_prompt` reads both
with `dict.get`, so both are modelled as optional. -/
structure Meta where
  source : Option (List Char)
  page : Option Nat
deriving DecidableEq

/-! ## Retriever (`rag.py`, `retrieve`)

The ChromaDB collection is an external collaborator: it is modelled by its
interface only — a stored-chunk `count` and a `query` function returning
positionally aligned optional lists (mirroring `results["documents"][0] or []`
etc.).  The distance type is abstract (`δ`), with `d0` standing for the
Python literal `0.0` used when no distances are returned.  The first
component of the result records the `n_results` arguments of the `query`
calls that were performed. -/

structure QueryReply (δ : Type) where
  docs : Option (List (List Char))
  metas : Option (List Meta)
  dists : Option (List δ)

structure Store (δ : Type) where
  count : Nat
  query : List Char → Nat → QueryReply δ

/-- Function `retrieve(question, top_k)` from `localmind/rag.py`. -/
def retrieve {δ : Type} (d0 : δ) (store : Store δ) (question : List Char) (top_k : Nat) :
    List Nat × List (List Char × Meta × δ) :=
  if store.count = 0 then ([], [])
  else
    let n := min top_k store.count
    let r := store.query question n
    let docs := (r.docs).getD []
    let metas := (r.metas).getD []
    let dists :=
      match r.dists with
      | some ds => ds
      | none => List.replicate docs.length d0
    ([n], docs.zip (metas.zip dists))

/-! ## Prompt assembly (`rag.py`, `build_prompt`) -/

/-- The fallback prompt text of `build_prompt` for an empty chunk list
(the two adjacent Python string literals, concatenated). -/
def fallbackPrompt : List Char :=
  ("No relevant documents were found. Answer based on your general knowledge "
    ++ "and say you have no document context.\n\nQuestion: ").toList

/-- The instruction header of the context-carrying prompt. -/
def headerPrompt : List Char :=
  ("Use the following context from the user's documents to answer the question. "
    ++ "If the context does not contain enough information, say so.\n\nContext:\n").toList

/-- One labelled context block:
`f"[Source: {m.get('source', 'unknown')}" + (f", page {m.get('page')}" if m.get("page") else "") + "]\n" + text`.
`m.get("page")` is falsy for an absent page and for page `0`. -/
def renderBlock {δ : Type} (t : List Char × Meta × δ) : List Char :=
  "[Source: ".toList ++ (t.2.1.source.getD "unknown".toList)
    ++ (match t.2.1.page with
        | some p => if p = 0 then [] else ", page ".toList ++ Nat.toDigits 10 p
        | none => [])
    ++ "]\n".toList ++ t.1

/-- Python expression `sep.join(blocks)`. -/
def joinSep (sep : List Char) : List (List Char) → List Char
  | [] => []
  | [b] => b
  | b :: c :: bs => b ++ sep ++ joinSep sep (c :: bs)

/-- Function `build_prompt(question, chunks)` from `localmind/rag.py`. -/
def build_prompt {δ : Type} (question : List Char) (chunks : List (List Char × Meta × δ)) :
    List Char :=
  if chunks.isEmpty then fallbackPrompt ++ question
  else
    headerPrompt ++ joinSep "\n\n---\n\n".toList (chunks.map renderBlock)
      ++ "\n\nQuestion: ".toList ++ question

/-! ## Ingestion (`ingest.py`, `ingest_paths` / `ingest_files_in_memory`)

File-system traversal, PDF extraction and the loader are external
collaborators; a `FileEntry` records their outcome for one file (its path
`name`, `Path.stem`, extension class, and the `(text, metadata)` units
`load_document` returned — empty for an unreadable/empty/unsupported file).
The storage collaborator's mutation is recorded as an `InsertCall` value
instead of being performed. -/

inductive FileExt where
  | pdf | txt | md | text | other
deriving DecidableEq

structure FileEntry where
  name : List Char
  stem : List Char
  units : List (List Char × Meta)
  ext : FileExt

/-- One resolved element of the `paths` argument of `ingest_paths`:
a missing path, a single file, or a directory (with the files `rglob`
found in it that have a recognized suffix). -/
inductive PathInput where
  | notFound (name : List Char)
  | file (f : FileEntry)
  | dir (entries : List FileEntry)

structure BatchAcc where
  ids : List (List Char)
  docs : List (List Char)
  metas : List Meta
  errors : List (List Char)
deriving DecidableEq

def emptyBatch : BatchAcc := ⟨[], [], [], []⟩

/-- The id format `doc_id = f"{base_name}_{idx}"` of `ingest_paths`. -/
def mkPathId (stem : List Char) (idx : Nat) : List Char :=
  stem ++ '_' :: Nat.toDigits 10 idx

/-- The check `file_path.suffix.lower() in (".pdf", ".txt", ".md")` (note: `.text`
files are recognized by the loader but missing from this error check). -/
def recognizedErrExt (e : FileExt) : Bool :=
  e = FileExt.pdf || e = FileExt.txt || e = FileExt.md

/-- The chunk loop of `add_file`: `idx` starts at 0 per file and increments
once per chunk across all units of the file. -/
def addFileChunks (chunk_size overlap : Nat) (stem : List Char)
    (units : List (List Char × Meta)) (start : BatchAcc × Nat) : BatchAcc × Nat :=
  units.foldl
    (fun p u =>
      (_chunk_text u.1 chunk_size overlap).foldl
        (fun q ch =>
          ({ q.1 with
              ids := q.1.ids ++ [mkPathId stem q.2],
              docs := q.1.docs ++ [ch],
              metas := q.1.metas ++ [u.2] }, q.2 + 1))
        p)
    start

/-- Helper `add_file` of `ingest_paths`. -/
def add_file (chunk_size overlap : Nat) (f : FileEntry) (acc : BatchAcc) : BatchAcc :=
  if f.units.isEmpty then
    if recognizedErrExt f.ext then
      { acc with errors := acc.errors ++ [("Empty or unreadable: ").toList ++ f.name] }
    else acc
  else (addFileChunks chunk_size overlap f.stem f.units (acc, 0)).1

/-- The accumulation loop of `ingest_paths` over its resolved inputs. -/
def pathsAcc (chunk_size overlap : Nat) (inputs : List PathInput) : BatchAcc :=
  inputs.foldl
    (fun acc i =>
      match i with
      | .notFound name => { acc with errors := acc.errors ++ [("Not found: ").toList ++ name] }
      | .file f => add_file chunk_size overlap f acc
      | .dir es => es.foldl (fun a f => add_file chunk_size overlap f a) acc)
    emptyBatch

/-- Arguments of one `collection.add(ids=..., documents=..., metadatas=...)` call. -/
structure InsertCall where
  ids : List (List Char)
  docs : List (List Char)
  metas : List Meta
deriving DecidableEq

/-- Outcome of one ingestion invocation: the batch-insert calls performed,
the returned chunk count, and the returned error list. -/
structure IngestResult where
  calls : List InsertCall
  added : Nat
  errors : List (List Char)
deriving DecidableEq

/-- Function `ingest_paths` from `localmind/ingest.py` (returns `len(all_ids)`). -/
def ingest_paths (chunk_size overlap : Nat) (inputs : List PathInput) : IngestResult :=
  if (pathsAcc chunk_size overlap inputs).docs.isEmpty then
    ⟨[], 0, (pathsAcc chunk_size overlap inputs).errors⟩
  else
    ⟨[⟨(pathsAcc chunk_size overlap inputs).ids, (pathsAcc chunk_size overlap inputs).docs,
        (pathsAcc chunk_size overlap inputs).metas⟩],
      (pathsAcc chunk_size overlap inputs).ids.length,
      (pathsAcc chunk_size overlap inputs).errors⟩

/-- Outcome of loading one in-memory upload through the temp file:
either the loader raised (message `msg`) or returned `units`. -/
inductive MemLoad where
  | fail (msg : List Char)
  | ok (units : List (List Char × Meta))

/-- One zipped element of `zip(file_contents, filenames)`:
the display name, its `Path.stem`, the CPython `id(raw)` token of the
uploaded bytes object, and the loader outcome. -/
structure MemEntry where
  displayName : List Char
  stem : List Char
  rawId : Nat
  load : MemLoad

/-- The id format `doc_id = f"{base_name}_{idx}_{id(raw)}"` of `ingest_files_in_memory`. -/
def mkMemId (stem : List Char) (idx rawId : Nat) : List Char :=
  stem ++ '_' :: (Nat.toDigits 10 idx ++ '_' :: Nat.toDigits 10 rawId)

/-- The chunk loop of `ingest_files_in_memory` for one entry
(the unit metadata gets `source` overridden to the display name). -/
def addMemChunks (chunk_size overlap : Nat) (e : MemEntry)
    (units : List (List Char × Meta)) (start : BatchAcc × Nat) : BatchAcc × Nat :=
  units.foldl
    (fun p u =>
      (_chunk_text u.1 chunk_size overlap).foldl
        (fun q ch =>
          ({ q.1 with
              ids := q.1.ids ++ [mkMemId e.stem q.2 e.rawId],
              docs := q.1.docs ++ [ch],
              metas := q.1.metas ++ [{ u.2 with source := some e.displayName }] }, q.2 + 1))
        p)
    start

/-- The accumulation loop of `ingest_files_in_memory`. -/
def memAcc (chunk_size overlap : Nat) (entries : List MemEntry) : BatchAcc :=
  entries.foldl
    (fun acc e =>
      match e.load with
      | .fail m => { acc with errors := acc.errors ++ [e.displayName ++ (": ").toList ++ m] }
      | .ok units =>
        if units.isEmpty then
          { acc with errors := acc.errors ++ [("Empty or unreadable: ").toList ++ e.displayName] }
        else (addMemChunks chunk_size overlap e units (acc, 0)).1)
    emptyBatch

/-- Function `ingest_files_in_memory` from `localmind/ingest.py` (returns `len(all_chunks)`). -/
def ingest_files_in_memory (chunk_size overlap : Nat) (entries : List MemEntry) : IngestResult :=
  if (memAcc chunk_size overlap entries).docs.isEmpty then
    ⟨[], 0, (memAcc chunk_size overlap entries).errors⟩
  else
    ⟨[⟨(memAcc chunk_size overlap entries).ids, (memAcc chunk_size overlap entries).docs,
        (memAcc chunk_size overlap entries).metas⟩],
      (memAcc chunk_size overlap entries).docs.length,
      (memAcc chunk_size overlap entries).errors⟩

/-! ## Alignment companions for C10: the same chunk loops, producing one
`(id, chunk, metadata)` triple per chunk instead of three parallel lists. -/

def fileTriplesFrom (chunk_size overlap : Nat) (stem : List Char)
    (units : List (List Char × Meta))
    (start : List (List Char × List Char × Meta) × Nat) :
    List (List Char × List Char × Meta) × Nat :=
  units.foldl
    (fun p u =>
      (_chunk_text u.1 chunk_size overlap).foldl
        (fun q ch => (q.1 ++ [(mkPathId stem q.2, ch, u.2)], q.2 + 1))
        p)
    start

def memTriplesFrom (chunk_size overlap : Nat) (e : MemEntry)
    (units : List (List Char × Meta))
    (start : List (List Char × List Char × Meta) × Nat) :
    List (List Char × List Char × Meta) × Nat :=
  units.foldl
    (fun p u =>
      (_chunk_text u.1 chunk_size overlap).foldl
        (fun q ch =>
          (q.1 ++ [(mkMemId e.stem q.2 e.rawId, ch, { u.2 with source := some e.displayName })],
            q.2 + 1))
        p)
    start

def pathsTriples (chunk_size overlap : Nat) (inputs : List PathInput) :
    List (List Char × List Char × Meta) :=
  inputs.foldl
    (fun ts i =>
      match i with
      | .notFound _ => ts
      | .file f =>
        if f.units.isEmpty then ts
        else (fileTriplesFrom chunk_size overlap f.stem f.units (ts, 0)).1
      | .dir es =>
        es.foldl
          (fun t f =>
            if f.units.isEmpty then t
            else (fileTriplesFrom chunk_size overlap f.stem f.units (t, 0)).1)
          ts)
    []

def memTriples (chunk_size overlap : Nat) (entries : List MemEntry) :
    List (List Char × List Char × Meta) :=
  entries.foldl
    (fun ts e =>
      match e.load with
      | .fail _ => ts
      | .ok units =>
        if units.isEmpty then ts
        else (memTriplesFrom chunk_size overlap e units (ts, 0)).1)
    []

/-! ## Auxiliary notions for the claims -/

/-- A string with no whitespace character (hence no occurrence of any of the
configured separators `"\n\n"`, `"\n"`, `". "`, or a whitespace run, all of
which contain a whitespace character). -/
def wsFree (l : List Char) : Prop := ∀ c ∈ l, isWS c = false

instance (l : List Char) : Decidable (wsFree l) :=
  decidable_of_iff (∀ c ∈ l, isWS c = false) Iff.rfl

/-- Modelled from the spec for claim C3: a variant of the packing loop whose
whitespace level re-joins consecutive parts of one output segment with a
single space character, as the claim describes, instead of concatenating
them directly as the code does. -/
def packStepSpaced (size ov : Nat) (st : List (List Char) × List Char) (add : List Char) :
    List (List Char) × List Char :=
  let joined := if st.2 = [] then add else st.2 ++ ' ' :: add
  if joined.length ≤ size then (st.1, joined)
  else
    ((if st.2 = [] then st.1 else st.1 ++ [strip st.2]), ovStartOf ov st.2 ++ add)

/-- Modelled from the spec for claim C3: `packAdds` with single-space joining. -/
def packAddsSpaced (size ov : Nat) (adds : List (List Char)) : List (List Char) :=
  match adds.foldl (packStepSpaced size ov) ([], []) with
  | (acc, current) => if strip current = [] then acc else acc ++ [strip current]

/-- Modelled from the spec for claim C3: the whitespace pass with
single-space joining. -/
def splitPassSpacedWS (size ov : Nat) (chunks : List (List Char)) : List (List Char) :=
  chunks.foldl
    (fun acc c =>
      if c.length ≤ size then acc ++ [c]
      else acc ++ packAddsSpaced size ov (reSplitWS c))
    []

/-- Modelled from the spec for claim C3: `_chunk_text` with the whitespace
level re-joining parts with single spaces (all other levels unchanged). -/
def chunkTextSpaced (text : List Char) (chunk_size overlap : Nat) : List (List Char) :=
  if strip text = [] then []
  else
    (splitPassSpacedWS chunk_size overlap
      (splitPass chunk_size overlap (some ['.', ' '])
        (splitPass chunk_size overlap (some ['\n'])
          (splitPass chunk_size overlap (some ['\n', '\n']) [text])))).filter
      (fun c => !(strip c).isEmpty)

/-- A concrete 2000-character single-paragraph text (no `'\n'` anywhere):
one 5-letter word followed by 399 4-letter words, single-space separated. -/
def tPara : List Char :=
  "aaaaa".toList ++ (List.replicate 399 (' ' :: "aaaa".toList)).flatten

/-! ## Concrete instances used by witnesses and counterexamples -/

/-- Two readable files with different extensions but the same stem `"a"`. -/
def c6File1 : FileEntry :=
  ⟨"a.txt".toList, "a".toList, [("hello".toList, ⟨some "a.txt".toList, none⟩)], FileExt.txt⟩

def c6File2 : FileEntry :=
  ⟨"a.md".toList, "a".toList, [("world".toList, ⟨some "a.md".toList, none⟩)], FileExt.md⟩

def c6Input : List PathInput := [PathInput.file c6File1, PathInput.file c6File2]

/-- A store with three chunks, for exercising the retriever. -/
def c8Store : Store Int :=
  ⟨3, fun _ _ =>
    ⟨some ["d1".toList, "d2".toList, "d3".toList],
      some [⟨some "s".toList, some 1⟩, ⟨some "s".toList, none⟩, ⟨none, none⟩],
      some [1, 2, 3]⟩⟩

/-! ## Whitespace and `strip` lemmas -/

theorem filterNW_append (a b : List Char) : filterNW (a ++ b) = filterNW a ++ filterNW b :=
  List.filter_append _ _

theorem filterNW_dropWhile (l : List Char) : filterNW (l.dropWhile isWS) = filterNW l := by
  induction l with
  | nil => rfl
  | cons c rest ih =>
    rw [List.dropWhile_cons]
    by_cases h : isWS c = true
    · rw [if_pos h, ih]
      simp [filterNW, List.filter_cons, h]
    · rw [if_neg h]

theorem filterNW_reverse (l : List Char) : filterNW l.reverse = (filterNW l).reverse :=
  List.filter_reverse _ _

theorem filterNW_strip (l : List Char) : filterNW (strip l) = filterNW l := by
  unfold strip
  rw [filterNW_reverse, filterNW_dropWhile, filterNW_reverse, List.reverse_reverse,
    filterNW_dropWhile]

theorem filterNW_eq_nil_of_strip_eq_nil {l : List Char} (h : strip l = []) :
    filterNW l = [] := by
  rw [← filterNW_strip, h]; rfl

theorem mem_strip {l : List Char} {a : Char} (h : a ∈ strip l) : a ∈ l := by
  unfold strip at h
  rw [List.mem_reverse] at h
  have h2 := (List.dropWhile_suffix isWS).sublist.subset h
  rw [List.mem_reverse] at h2
  exact (List.dropWhile_suffix isWS).sublist.subset h2

theorem wsFree_filterNW (l : List Char) : wsFree (filterNW l) := by
  intro c hc
  rw [filterNW, List.mem_filter] at hc
  simpa using hc.2

theorem filterNW_eq_self {l : List Char} (h : wsFree l) : filterNW l = l := by
  rw [filterNW]
  apply List.filter_eq_self.mpr
  intro a ha
  simpa using h a ha

theorem wsFree_of_sub {l m : List Char} (h : wsFree m) (hs : ∀ a ∈ l, a ∈ m) : wsFree l :=
  fun c hc => h c (hs c hc)

theorem dropWhile_eq_self_of_wsFree {l : List Char} (h : wsFree l) :
    l.dropWhile isWS = l := by
  match l with
  | [] => rfl
  | c :: rest =>
    rw [List.dropWhile_cons, if_neg]
    simp [h c (List.mem_cons_self c rest)]

theorem wsFree_reverse {l : List Char} (h : wsFree l) : wsFree l.reverse := by
  intro c hc
  exact h c (List.mem_reverse.mp hc)

theorem strip_eq_self_of_wsFree {l : List Char} (h : wsFree l) : strip l = l := by
  unfold strip
  rw [dropWhile_eq_self_of_wsFree h, dropWhile_eq_self_of_wsFree (wsFree_reverse h),
    List.reverse_reverse]

/-! ## Splitter lemmas -/

theorem isPrefixOf_exists {l₁ l₂ : List Char} (h : l₁.isPrefixOf l₂ = true) :
    ∃ t, l₂ = l₁ ++ t := by
  induction l₁ generalizing l₂ with
  | nil => exact ⟨l₂, rfl⟩
  | cons a as ih =>
    match l₂ with
    | [] => simp [List.isPrefixOf] at h
    | b :: bs =>
      simp only [List.isPrefixOf, Bool.and_eq_true, beq_iff_eq] at h
      obtain ⟨t, ht⟩ := ih h.2
      exact ⟨t, by rw [h.1, ht]; rfl⟩

theorem pySplitAux_ne_nil (sep : List Char) (fuel : Nat) (s : List Char) :
    pySplitAux sep fuel s ≠ [] := by
  match fuel, s with
  | 0, [] => simp [pySplitAux]
  | fuel + 1, [] => simp [pySplitAux]
  | 0, c :: rest => simp [pySplitAux]
  | fuel + 1, c :: rest =>
    rw [pySplitAux]
    cases hp : sep.isPrefixOf (c :: rest) with
    | true => simp
    | false =>
      simp only [Bool.false_eq_true, if_false]
      cases hr : pySplitAux sep fuel rest <;> simp

theorem reSplitWSAux_ne_nil (fuel : Nat) (s : List Char) :
    reSplitWSAux fuel s ≠ [] := by
  match fuel, s with
  | 0, [] => simp [reSplitWSAux]
  | fuel + 1, [] => simp [reSplitWSAux]
  | 0, c :: rest => simp [reSplitWSAux]
  | fuel + 1, c :: rest =>
    rw [reSplitWSAux]
    cases hp : isWS c with
    | true => simp
    | false =>
      simp only [Bool.false_eq_true, if_false]
      cases hr : reSplitWSAux fuel rest <;> simp

theorem addsOf_flatten_cons (sep x : List Char) (rs : List (List Char)) (h : rs ≠ []) :
    (addsOf sep (x :: rs)).flatten = x ++ sep ++ (addsOf sep rs).flatten := by
  match rs with
  | [] => contradiction
  | r :: rs' => simp [addsOf, List.append_assoc]

theorem addsOf_flatten_head_cons (sep : List Char) (c : Char) (p : List Char)
    (ps : List (List Char)) :
    (addsOf sep ((c :: p) :: ps)).flatten = c :: (addsOf sep (p :: ps)).flatten := by
  match ps with
  | [] => simp [addsOf]
  | q :: qs => simp [addsOf]

theorem pySplitAux_flatten (sep : List Char) (hsep : sep ≠ []) :
    ∀ (fuel : Nat) (s : List Char), s.length ≤ fuel →
      (addsOf sep (pySplitAux sep fuel s)).flatten = s := by
  intro fuel
  induction fuel with
  | zero =>
    intro s hs
    have hnil : s = [] := List.eq_nil_of_length_eq_zero (Nat.le_zero.mp hs)
    subst hnil
    simp [pySplitAux, addsOf]
  | succ n ih =>
    intro s hs
    match s with
    | [] => simp [pySplitAux, addsOf]
    | c :: rest =>
      rw [pySplitAux]
      cases hp : sep.isPrefixOf (c :: rest) with
      | true =>
        simp only [if_true]
        obtain ⟨t, ht⟩ := isPrefixOf_exists hp
        have hdrop : List.drop sep.length (c :: rest) = t := by
          rw [ht, List.drop_left]
        have hlen : t.length ≤ n := by
          have h1 : (c :: rest).length = sep.length + t.length := by rw [ht]; simp
          have h2 : 0 < sep.length := List.length_pos.mpr hsep
          simp only [List.length_cons] at hs h1
          omega
        rw [hdrop, addsOf_flatten_cons sep [] _ (pySplitAux_ne_nil sep n t),
          ih t hlen, List.nil_append, ← ht]
      | false =>
        simp only [Bool.false_eq_true, if_false]
        cases hr : pySplitAux sep n rest with
        | nil => exact absurd hr (pySplitAux_ne_nil sep n rest)
        | cons p ps =>
          rw [addsOf_flatten_head_cons, ← hr,
            ih rest (by simpa using Nat.le_of_succ_le_succ (by simpa using hs))]

theorem reSplitWSAux_flatten :
    ∀ (fuel : Nat) (s : List Char), s.length ≤ fuel →
      (reSplitWSAux fuel s).flatten = filterNW s := by
  intro fuel
  induction fuel with
  | zero =>
    intro s hs
    have hnil : s = [] := List.eq_nil_of_length_eq_zero (Nat.le_zero.mp hs)
    subst hnil
    rfl
  | succ n ih =>
    intro s hs
    match s with
    | [] => rfl
    | c :: rest =>
      rw [reSplitWSAux]
      cases hw : isWS c with
      | true =>
        simp only [if_true]
        have hlen : (rest.dropWhile isWS).length ≤ n := by
          have h1 := (List.dropWhile_suffix (l := rest) isWS).sublist.length_le
          simp only [List.length_cons] at hs
          omega
        rw [List.flatten_cons, List.nil_append, ih _ hlen, filterNW_dropWhile]
        simp [filterNW, List.filter_cons, hw]
      | false =>
        simp only [Bool.false_eq_true, if_false]
        cases hr : reSplitWSAux n rest with
        | nil => exact absurd hr (reSplitWSAux_ne_nil n rest)
        | cons p ps =>
          have hrec := ih rest (by simpa using Nat.le_of_succ_le_succ (by simpa using hs))
          rw [hr] at hrec
          have hfil : filterNW (c :: rest) = c :: filterNW rest := by
            simp [filterNW, List.filter_cons, hw]
          rw [hfil, ← hrec]
          simp [List.flatten_cons]

theorem pySplit_flatten {sep : List Char} (hsep : sep ≠ []) (s : List Char) :
    (addsOf sep (pySplit sep s)).flatten = s :=
  pySplitAux_flatten sep hsep s.length s le_rfl

theorem reSplitWS_flatten (s : List Char) : (reSplitWS s).flatten = filterNW s :=
  reSplitWSAux_flatten s.length s le_rfl

theorem reSplitWS_wsFree {s p : List Char} (hp : p ∈ reSplitWS s) : wsFree p := by
  have hsub := List.sublist_flatten_of_mem hp
  rw [reSplitWS_flatten] at hsub
  exact wsFree_of_sub (wsFree_filterNW s) hsub.subset

/-! ## Packing-loop lemmas -/

theorem ovStartOf_nil (ov : Nat) : ovStartOf ov [] = [] := by
  unfold ovStartOf
  split
  · rfl
  · split <;> simp

theorem ovStartOf_sub (ov : Nat) (cur : List Char) : ∀ a ∈ ovStartOf ov cur, a ∈ cur := by
  intro a ha
  unfold ovStartOf at ha
  split at ha
  · simp at ha
  · split at ha
    · exact List.mem_of_mem_drop ha
    · exact ha

theorem wsFree_append {a b : List Char} (ha : wsFree a) (hb : wsFree b) : wsFree (a ++ b) := by
  intro c hc
  rcases List.mem_append.mp hc with h | h
  · exact ha c h
  · exact hb c h

theorem wsFree_strip {l : List Char} (h : wsFree l) : wsFree (strip l) :=
  wsFree_of_sub h (fun _ ha => mem_strip ha)

theorem packStep_conn_sublist (size ov : Nat) (acc : List (List Char)) (cur add : List Char) :
    (filterNW (acc.flatten ++ (cur ++ add))).Sublist
      (filterNW ((packStep size ov (acc, cur) add).1.flatten
        ++ (packStep size ov (acc, cur) add).2)) := by
  unfold packStep
  by_cases hfit : cur.length + add.length ≤ size
  · simp only [hfit, if_pos]
    exact List.Sublist.refl _
  · simp only [hfit, if_neg, not_false_iff]
    by_cases hcur : cur = []
    · subst hcur
      simp only [if_pos rfl, ovStartOf_nil]
      exact List.Sublist.refl _
    · simp only [if_neg hcur]
      have hflat : ((acc ++ [strip cur]).flatten) = acc.flatten ++ strip cur := by simp
      rw [hflat]
      simp only [filterNW_append, filterNW_strip, List.append_assoc]
      apply (List.append_sublist_append_left _).mpr
      apply (List.append_sublist_append_left _).mpr
      exact List.sublist_append_right _ _

theorem packStep_conn_eq (size : Nat) (acc : List (List Char)) (cur add : List Char) :
    filterNW ((packStep size 0 (acc, cur) add).1.flatten
        ++ (packStep size 0 (acc, cur) add).2)
      = filterNW (acc.flatten ++ (cur ++ add)) := by
  unfold packStep
  by_cases hfit : cur.length + add.length ≤ size
  · simp only [hfit, if_pos]
  · simp only [hfit, if_neg, not_false_iff]
    have hov : ovStartOf 0 cur = [] := by simp [ovStartOf]
    by_cases hcur : cur = []
    · subst hcur
      simp [hov]
    · simp only [if_neg hcur, hov, List.nil_append]
      simp only [filterNW_append, filterNW_strip, List.append_assoc, List.flatten_append,
        List.flatten_cons, List.flatten_nil, List.append_nil]

theorem packFold_conn_sublist (size ov : Nat) :
    ∀ (adds : List (List Char)) (acc : List (List Char)) (cur : List Char),
      (filterNW (acc.flatten ++ (cur ++ adds.flatten))).Sublist
        (filterNW ((adds.foldl (packStep size ov) (acc, cur)).1.flatten
          ++ (adds.foldl (packStep size ov) (acc, cur)).2)) := by
  intro adds
  induction adds with
  | nil =>
    intro acc cur
    simp only [List.flatten_nil, List.append_nil, List.foldl_nil]
    exact List.Sublist.refl _
  | cons a as ih =>
    intro acc cur
    rw [List.foldl_cons]
    rcases hst : packStep size ov (acc, cur) a with ⟨acc', cur'⟩
    have step := packStep_conn_sublist size ov acc cur a
    rw [hst] at step
    dsimp only at step
    have h1 : acc.flatten ++ (cur ++ (a :: as).flatten)
        = (acc.flatten ++ (cur ++ a)) ++ as.flatten := by
      simp [List.append_assoc]
    have h2 : acc'.flatten ++ (cur' ++ as.flatten)
        = (acc'.flatten ++ cur') ++ as.flatten := by
      simp [List.append_assoc]
    have hmid : (filterNW (acc.flatten ++ (cur ++ (a :: as).flatten))).Sublist
        (filterNW (acc'.flatten ++ (cur' ++ as.flatten))) := by
      rw [h1, h2, filterNW_append, filterNW_append (acc'.flatten ++ cur')]
      exact List.Sublist.append step (List.Sublist.refl _)
    exact hmid.trans (ih acc' cur')

theorem packFold_conn_eq (size : Nat) :
    ∀ (adds : List (List Char)) (acc : List (List Char)) (cur : List Char),
      filterNW ((adds.foldl (packStep size 0) (acc, cur)).1.flatten
          ++ (adds.foldl (packStep size 0) (acc, cur)).2)
        = filterNW (acc.flatten ++ (cur ++ adds.flatten)) := by
  intro adds
  induction adds with
  | nil =>
    intro acc cur
    simp only [List.flatten_nil, List.append_nil, List.foldl_nil]
  | cons a as ih =>
    intro acc cur
    rw [List.foldl_cons]
    rcases hst : packStep size 0 (acc, cur) a with ⟨acc', cur'⟩
    have step := packStep_conn_eq size acc cur a
    rw [hst] at step
    dsimp only at step
    have h1 : acc.flatten ++ (cur ++ (a :: as).flatten)
        = (acc.flatten ++ (cur ++ a)) ++ as.flatten := by
      simp [List.append_assoc]
    have h2 : acc'.flatten ++ (cur' ++ as.flatten)
        = (acc'.flatten ++ cur') ++ as.flatten := by
      simp [List.append_assoc]
    rw [ih acc' cur', h2, h1, filterNW_append, filterNW_append (acc.flatten ++ (cur ++ a)), step]

theorem packAdds_flatten_filterNW (size ov : Nat) (adds : List (List Char)) :
    filterNW (packAdds size ov adds).flatten
      = filterNW ((adds.foldl (packStep size ov) ([], [])).1.flatten
          ++ (adds.foldl (packStep size ov) ([], [])).2) := by
  unfold packAdds
  rcases hst : adds.foldl (packStep size ov) ([], []) with ⟨a1, c1⟩
  dsimp only
  by_cases h : strip c1 = []
  · rw [if_pos h, filterNW_append, filterNW_eq_nil_of_strip_eq_nil h, List.append_nil]
  · rw [if_neg h, List.flatten_append, filterNW_append, filterNW_append]
    simp [filterNW_strip]

theorem packAdds_conn_sublist (size ov : Nat) (adds : List (List Char)) :
    (filterNW adds.flatten).Sublist (filterNW (packAdds size ov adds).flatten) := by
  rw [packAdds_flatten_filterNW]
  have h := packFold_conn_sublist size ov adds [] []
  simpa using h

theorem packAdds_conn_eq (size : Nat) (adds : List (List Char)) :
    filterNW (packAdds size 0 adds).flatten = filterNW adds.flatten := by
  rw [packAdds_flatten_filterNW]
  have h := packFold_conn_eq size adds [] []
  simpa using h

theorem packFold_wsFree (size ov : Nat) :
    ∀ (adds : List (List Char)) (acc : List (List Char)) (cur : List Char),
      (∀ a ∈ adds, wsFree a) → (∀ x ∈ acc, wsFree x) → wsFree cur →
        (∀ x ∈ (adds.foldl (packStep size ov) (acc, cur)).1, wsFree x) ∧
          wsFree (adds.foldl (packStep size ov) (acc, cur)).2 := by
  intro adds
  induction adds with
  | nil =>
    intro acc cur _ hacc hcur
    exact ⟨hacc, hcur⟩
  | cons a as ih =>
    intro acc cur hadds hacc hcur
    rw [List.foldl_cons]
    have ha : wsFree a := hadds a (List.mem_cons_self a as)
    have has : ∀ x ∈ as, wsFree x := fun x hx => hadds x (List.mem_cons_of_mem a hx)
    rcases hst : packStep size ov (acc, cur) a with ⟨acc', cur'⟩
    have hinv : (∀ x ∈ acc', wsFree x) ∧ wsFree cur' := by
      unfold packStep at hst
      by_cases hfit : cur.length + a.length ≤ size
      · simp only [hfit, if_pos, Prod.mk.injEq] at hst
        exact ⟨hst.1 ▸ hacc, hst.2 ▸ wsFree_append hcur ha⟩
      · simp only [hfit, if_neg, not_false_iff, Prod.mk.injEq] at hst
        constructor
        · intro x hx
          rw [← hst.1] at hx
          by_cases hcurnil : cur = []
          · simp only [hcurnil, if_pos rfl] at hx
            exact hacc x hx
          · simp only [hcurnil, if_neg, not_false_iff] at hx
            rcases List.mem_append.mp hx with h | h
            · exact hacc x h
            · rw [List.mem_singleton.mp h]
              exact wsFree_strip hcur
        · rw [← hst.2]
          exact wsFree_append (wsFree_of_sub hcur (ovStartOf_sub ov cur)) ha
    exact ih acc' cur' has hinv.1 hinv.2

theorem packAdds_wsFree {size ov : Nat} {adds : List (List Char)}
    (h : ∀ a ∈ adds, wsFree a) : ∀ c ∈ packAdds size ov adds, wsFree c := by
  intro c hc
  unfold packAdds at hc
  rcases hst : adds.foldl (packStep size ov) ([], []) with ⟨a1, c1⟩
  have hinv := packFold_wsFree size ov adds [] [] h (by simp) (by intro x hx; simp at hx)
  rw [hst] at hinv hc
  simp only at hc
  by_cases hnil : strip c1 = []
  · simp only [hnil, if_pos rfl] at hc
    exact hinv.1 c hc
  · simp only [hnil, if_neg, not_false_iff] at hc
    rcases List.mem_append.mp hc with h' | h'
    · exact hinv.1 c h'
    · rw [List.mem_singleton.mp h']
      exact wsFree_strip hinv.2

/-! ## Pass-level lemmas -/

theorem foldl_append_eq {α β : Type} (g : β → List α) :
    ∀ (l : List β) (acc : List α), l.foldl (fun a c => a ++ g c) acc = acc ++ (l.map g).flatten := by
  intro l
  induction l with
  | nil => intro acc; simp
  | cons c cs ih =>
    intro acc
    rw [List.foldl_cons, ih, List.map_cons, List.flatten_cons, List.append_assoc]

theorem splitPass_eq (size ov : Nat) (sep : Option (List Char)) (chunks : List (List Char)) :
    splitPass size ov sep chunks
      = (chunks.map
          (fun c => if c.length ≤ size then [c] else packAdds size ov (levelAdds sep c))).flatten := by
  unfold splitPass
  have hfun : (fun (acc : List (List Char)) c =>
        if c.length ≤ size then acc ++ [c] else acc ++ packAdds size ov (levelAdds sep c))
      = fun (acc : List (List Char)) c =>
        acc ++ (if c.length ≤ size then [c] else packAdds size ov (levelAdds sep c)) := by
    funext acc c
    by_cases h : c.length ≤ size <;> simp [h]
  rw [hfun, foldl_append_eq]
  simp

theorem levelAdds_flatten_filterNW :
    ∀ (sep : Option (List Char)), (∀ s, sep = some s → s ≠ []) →
      ∀ c, filterNW (levelAdds sep c).flatten = filterNW c := by
  intro sep hsep c
  match sep with
  | some s =>
    unfold levelAdds
    rw [pySplit_flatten (hsep s rfl)]
  | none =>
    unfold levelAdds
    rw [reSplitWS_flatten, filterNW_eq_self (wsFree_filterNW c)]

theorem splitPass_conn_sublist (size ov : Nat) (sep : Option (List Char))
    (hsep : ∀ s, sep = some s → s ≠ []) (chunks : List (List Char)) :
    (filterNW chunks.flatten).Sublist (filterNW (splitPass size ov sep chunks).flatten) := by
  rw [splitPass_eq]
  induction chunks with
  | nil => simp
  | cons c cs ih =>
    rw [List.map_cons, List.flatten_cons, List.flatten_cons, List.flatten_append,
      filterNW_append, filterNW_append]
    apply List.Sublist.append _ ih
    by_cases h : c.length ≤ size
    · simp only [h, if_pos]
      simp
    · simp only [h, if_neg, not_false_iff]
      rw [← levelAdds_flatten_filterNW sep hsep c]
      exact packAdds_conn_sublist size ov (levelAdds sep c)

theorem splitPass_conn_eq (size : Nat) (sep : Option (List Char))
    (hsep : ∀ s, sep = some s → s ≠ []) (chunks : List (List Char)) :
    filterNW (splitPass size 0 sep chunks).flatten = filterNW chunks.flatten := by
  rw [splitPass_eq]
  induction chunks with
  | nil => simp
  | cons c cs ih =>
    rw [List.map_cons, List.flatten_cons, List.flatten_cons, List.flatten_append,
      filterNW_append, filterNW_append, ih]
    congr 1
    by_cases h : c.length ≤ size
    · simp only [h, if_pos]
      simp
    · simp only [h, if_neg, not_false_iff]
      rw [packAdds_conn_eq, levelAdds_flatten_filterNW sep hsep c]

theorem splitPass_none_bound (size ov : Nat) (chunks : List (List Char)) :
    ∀ c ∈ splitPass size ov none chunks, c.length ≤ size ∨ wsFree c := by
  rw [splitPass_eq]
  intro c hc
  rw [List.mem_flatten] at hc
  obtain ⟨l, hl, hcl⟩ := hc
  rw [List.mem_map] at hl
  obtain ⟨c₀, _, rfl⟩ := hl
  by_cases h : c₀.length ≤ size
  · simp only [h, if_pos] at hcl
    rw [List.mem_singleton.mp hcl]
    exact Or.inl h
  · simp only [h, if_neg, not_false_iff] at hcl
    right
    exact packAdds_wsFree (fun a ha => reSplitWS_wsFree ha) c hcl

/-! ## `_chunk_text`-level lemmas -/

theorem _chunk_text_eq (text : List Char) (size ov : Nat) :
    _chunk_text text size ov
      = if strip text = [] then []
        else
          (splitPass size ov none
            (splitPass size ov (some ['.', ' '])
              (splitPass size ov (some ['\n'])
                (splitPass size ov (some ['\n', '\n']) [text])))).filter
            (fun c => !(strip c).isEmpty) := rfl

theorem filterNW_flatten_filter_strip (L : List (List Char)) :
    filterNW (L.filter (fun c => !(strip c).isEmpty)).flatten = filterNW L.flatten := by
  induction L with
  | nil => rfl
  | cons c cs ih =>
    rw [List.filter_cons]
    by_cases h : strip c = []
    · have hemp : (!(strip c).isEmpty) = false := by rw [h]; rfl
      rw [hemp, if_neg (by simp)]
      rw [List.flatten_cons, filterNW_append, filterNW_eq_nil_of_strip_eq_nil h,
        List.nil_append, ih]
    · have hemp : (!(strip c).isEmpty) = true := by
        simp [List.isEmpty_iff, h]
      rw [hemp, if_pos (by simp)]
      rw [List.flatten_cons, List.flatten_cons, filterNW_append, filterNW_append, ih]

theorem sepNN_ne : ∀ s : List Char, (some ['\n', '\n'] : Option (List Char)) = some s → s ≠ [] := by
  intro s hv
  injection hv with hv'
  subst hv'
  simp

theorem sepN_ne : ∀ s : List Char, (some ['\n'] : Option (List Char)) = some s → s ≠ [] := by
  intro s hv
  injection hv with hv'
  subst hv'
  simp

theorem sepDot_ne : ∀ s : List Char, (some ['.', ' '] : Option (List Char)) = some s → s ≠ [] := by
  intro s hv
  injection hv with hv'
  subst hv'
  simp

theorem chunkText_conn_sublist (text : List Char) (size ov : Nat) :
    (filterNW text).Sublist (filterNW (_chunk_text text size ov).flatten) := by
  rw [_chunk_text_eq]
  by_cases h : strip text = []
  · rw [if_pos h, filterNW_eq_nil_of_strip_eq_nil h]
    simp
  · rw [if_neg h, filterNW_flatten_filter_strip]
    have h0 : filterNW text = filterNW ([text] : List (List Char)).flatten := by simp
    rw [h0]
    exact ((((splitPass_conn_sublist size ov _ sepNN_ne [text]).trans
      (splitPass_conn_sublist size ov _ sepN_ne _)).trans
      (splitPass_conn_sublist size ov _ sepDot_ne _)).trans
      (splitPass_conn_sublist size ov none (by intro s hv; cases hv) _))

theorem chunkText_conn_eq (text : List Char) (size : Nat) :
    filterNW (_chunk_text text size 0).flatten = filterNW text := by
  rw [_chunk_text_eq]
  by_cases h : strip text = []
  · rw [if_pos h, filterNW_eq_nil_of_strip_eq_nil h]
    rfl
  · rw [if_neg h, filterNW_flatten_filter_strip,
      splitPass_conn_eq size none (by intro s hv; cases hv) _,
      splitPass_conn_eq size _ sepDot_ne _,
      splitPass_conn_eq size _ sepN_ne _,
      splitPass_conn_eq size _ sepNN_ne _]
    simp

theorem wsFree_flatten {L : List (List Char)} (h : ∀ x ∈ L, wsFree x) :
    wsFree L.flatten := by
  intro c hc
  rw [List.mem_flatten] at hc
  obtain ⟨x, hx, hcx⟩ := hc
  exact h x hx c hcx

/-! ## Trimming lemmas (`str.strip` is idempotent) -/

theorem dropWhile_head_not {l : List Char} {c : Char}
    (h : (l.dropWhile isWS).head? = some c) : isWS c = false := by
  induction l with
  | nil => simp [List.dropWhile] at h
  | cons a rest ih =>
    rw [List.dropWhile_cons] at h
    by_cases ha : isWS a = true
    · rw [if_pos ha] at h
      exact ih h
    · rw [if_neg ha] at h
      simp only [List.head?_cons, Option.some.injEq] at h
      rw [← h]
      simpa using ha

theorem dropWhile_eq_self_of_head {l : List Char}
    (h : ∀ d, l.head? = some d → isWS d = false) : l.dropWhile isWS = l := by
  match l with
  | [] => rfl
  | a :: rest =>
    rw [List.dropWhile_cons, if_neg]
    simp [h a rfl]

theorem strip_head_not {l : List Char} {c : Char}
    (h : (strip l).head? = some c) : isWS c = false := by
  unfold strip at h
  rw [List.head?_reverse] at h
  have hne : ((l.dropWhile isWS).reverse.dropWhile isWS) ≠ [] := by
    intro hnil
    rw [hnil] at h
    simp at h
  obtain ⟨pre, hpre⟩ := List.dropWhile_suffix (l := (l.dropWhile isWS).reverse) isWS
  have hgl : ((l.dropWhile isWS).reverse).getLast? = some c := by
    rw [← hpre, List.getLast?_append_of_ne_nil _ hne, h]
  rw [List.getLast?_reverse] at hgl
  exact dropWhile_head_not hgl

theorem strip_getLast_not {l : List Char} {c : Char}
    (h : (strip l).getLast? = some c) : isWS c = false := by
  unfold strip at h
  rw [List.getLast?_reverse] at h
  exact dropWhile_head_not h

theorem strip_idem (l : List Char) : strip (strip l) = strip l := by
  cases hsl : strip l with
  | nil => rfl
  | cons c rest =>
    have hhead : ∀ d, (c :: rest).head? = some d → isWS d = false := by
      intro d hd
      simp only [List.head?_cons, Option.some.injEq] at hd
      subst hd
      exact strip_head_not (l := l) (by rw [hsl]; rfl)
    have hlast : ∀ d, ((c :: rest).reverse).head? = some d → isWS d = false := by
      intro d hd
      rw [List.head?_reverse] at hd
      exact strip_getLast_not (l := l) (by rw [hsl]; exact hd)
    show strip (c :: rest) = c :: rest
    unfold strip
    rw [dropWhile_eq_self_of_head hhead, dropWhile_eq_self_of_head hlast,
      List.reverse_reverse]

theorem packAdds_stripped (size ov : Nat) (adds : List (List Char)) :
    ∀ c ∈ packAdds size ov adds, strip c = c := by
  have hfold : ∀ (adds' : List (List Char)) (acc : List (List Char)) (cur : List Char),
      (∀ x ∈ acc, strip x = x) →
        ∀ x ∈ (adds'.foldl (packStep size ov) (acc, cur)).1, strip x = x := by
    intro adds'
    induction adds' with
    | nil => intro acc cur hacc; exact hacc
    | cons a as ih =>
      intro acc cur hacc
      rw [List.foldl_cons]
      rcases hst : packStep size ov (acc, cur) a with ⟨acc', cur'⟩
      apply ih acc' cur'
      intro x hx
      unfold packStep at hst
      by_cases hfit : cur.length + a.length ≤ size
      · simp only [hfit, if_pos, Prod.mk.injEq] at hst
        exact hacc x (hst.1 ▸ hx)
      · simp only [hfit, if_neg, not_false_iff, Prod.mk.injEq] at hst
        rw [← hst.1] at hx
        by_cases hcur : cur = []
        · simp only [hcur, if_pos rfl] at hx
          exact hacc x hx
        · simp only [hcur, if_neg, not_false_iff] at hx
          rcases List.mem_append.mp hx with h' | h'
          · exact hacc x h'
          · rw [List.mem_singleton.mp h']
            exact strip_idem cur
  intro c hc
  unfold packAdds at hc
  rcases hst : adds.foldl (packStep size ov) ([], []) with ⟨a1, c1⟩
  rw [hst] at hc
  dsimp only at hc
  by_cases h : strip c1 = []
  · rw [if_pos h] at hc
    exact hfold adds [] [] (by intro x hx; simp at hx) c (hst ▸ hc)
  · rw [if_neg h] at hc
    rcases List.mem_append.mp hc with h' | h'
    · exact hfold adds [] [] (by intro x hx; simp at hx) c (hst ▸ h')
    · rw [List.mem_singleton.mp h']
      exact strip_idem c1

theorem splitPass_bound_strip (size ov : Nat) (sep : Option (List Char))
    (chunks : List (List Char)) :
    ∀ c ∈ splitPass size ov sep chunks, c.length ≤ size ∨ strip c = c := by
  rw [splitPass_eq]
  intro c hc
  rw [List.mem_flatten] at hc
  obtain ⟨l, hl, hcl⟩ := hc
  rw [List.mem_map] at hl
  obtain ⟨c₀, _, rfl⟩ := hl
  by_cases h : c₀.length ≤ size
  · simp only [h, if_pos] at hcl
    rw [List.mem_singleton.mp hcl]
    exact Or.inl h
  · simp only [h, if_neg, not_false_iff] at hcl
    exact Or.inr (packAdds_stripped size ov _ c hcl)

/-! ## Claims C1, C2, C3, C5 -/

/-- C1: for every text, every `max_size > 0` and every `overlap < max_size`,
every chunk returned by `_chunk_text` has length at most `max_size`, or else
contains no whitespace character at all — hence no internal separator of any
configured level (paragraph break `"\n\n"`, line break `"\n"`, sentence
boundary `". "`, or whitespace run, each of which contains a whitespace
character): it is a single indivisible unit. -/
theorem chunk_size_bound (text : List Char) (max_size overlap : Nat)
    (hpos : 0 < max_size) (hov : overlap < max_size) :
    ∀ c ∈ _chunk_text text max_size overlap, c.length ≤ max_size ∨ wsFree c := by
  intro c hc
  rw [_chunk_text_eq] at hc
  by_cases h : strip text = []
  · rw [if_pos h] at hc
    simp at hc
  · rw [if_neg h] at hc
    rw [List.mem_filter] at hc
    exact splitPass_none_bound max_size overlap _ c hc.1

/-- Witness for C1 at the concrete input `"aa bb cc"`, `max_size = 5`,
`overlap = 0`, whose chunk `"aabb"` is a member of the output. -/
theorem chunk_size_bound_witness :
    "aabb".toList.length ≤ 5 ∨ wsFree "aabb".toList :=
  chunk_size_bound "aa bb cc".toList 5 0 (by decide) (by decide) "aabb".toList (by decide)

/-- C2: chunking terminates (the model is a total function built from
structural recursion, mirroring the code's bounded loops), and the
non-whitespace characters of the input occur, in the input's order, as a
subsequence of the non-whitespace characters of the concatenated chunks —
the extra occurrences being exactly the overlap-seeded duplicates, so that
with `overlap = 0` (no duplication) the two character sequences are equal:
every non-whitespace character is kept exactly once, in order, up to
overlap duplication. -/
theorem chunk_conservation (text : List Char) (max_size overlap : Nat)
    (hpos : 0 < max_size) (hov : overlap < max_size) :
    (filterNW text).Sublist (filterNW (_chunk_text text max_size overlap).flatten)
      ∧ (overlap = 0 →
          filterNW (_chunk_text text max_size overlap).flatten = filterNW text) := by
  constructor
  · exact chunkText_conn_sublist text max_size overlap
  · intro hz
    subst hz
    exact chunkText_conn_eq text max_size

/-- Witness for C2 at the concrete input `"ab cd"`, `max_size = 4`,
`overlap = 0`. -/
theorem chunk_conservation_witness :
    (filterNW "ab cd".toList).Sublist (filterNW (_chunk_text "ab cd".toList 4 0).flatten)
      ∧ filterNW (_chunk_text "ab cd".toList 4 0).flatten = filterNW "ab cd".toList :=
  ⟨(chunk_conservation "ab cd".toList 4 0 (by decide) (by decide)).1,
    (chunk_conservation "ab cd".toList 4 0 (by decide) (by decide)).2 rfl⟩

/-- C3 counterexample: on `"aa bb cc"` with `max_size = 5`, `overlap = 0`
the whitespace level packs the parts `"aa"` and `"bb"` into one output
segment by direct concatenation — the first chunk is `"aabb"`, containing
no space at all — whereas the claim's single-space re-joining (the
spec-modelled `chunkTextSpaced`) would produce `"aa bb"`. -/
theorem ws_join_counterexample :
    _chunk_text "aa bb cc".toList 5 0 = ["aabb".toList, "cc".toList]
      ∧ chunkTextSpaced "aa bb cc".toList 5 0 = ["aa bb".toList, "cc".toList]
      ∧ ¬ ' ' ∈ "aabb".toList := by decide

/-- C3 amended: at the final whitespace level, an oversized segment is split
on whitespace runs and the parts packed into output segments by direct
concatenation with **no** separator between them: every output of the
whitespace pass on an oversized segment is whitespace-free, and with
`overlap = 0` the concatenation of the pass's outputs is exactly the input
segment with all whitespace characters deleted. -/
theorem ws_level_direct_concat (size ov : Nat) (c : List Char) (h : size < c.length) :
    (∀ out ∈ splitPass size ov none [c], wsFree out)
      ∧ (splitPass size 0 none [c]).flatten = filterNW c := by
  have hsplit : ∀ ov', splitPass size ov' none [c] = packAdds size ov' (reSplitWS c) := by
    intro ov'
    rw [splitPass_eq]
    simp [Nat.not_le.mpr h, levelAdds]
  constructor
  · intro out hout
    rw [hsplit ov] at hout
    exact packAdds_wsFree (fun a ha => reSplitWS_wsFree ha) out hout
  · rw [hsplit 0]
    have hws : ∀ x ∈ packAdds size 0 (reSplitWS c), wsFree x :=
      packAdds_wsFree (fun a ha => reSplitWS_wsFree ha)
    calc (packAdds size 0 (reSplitWS c)).flatten
        = filterNW (packAdds size 0 (reSplitWS c)).flatten :=
          (filterNW_eq_self (wsFree_flatten hws)).symm
      _ = filterNW (reSplitWS c).flatten := packAdds_conn_eq size _
      _ = filterNW (filterNW c) := by rw [reSplitWS_flatten]
      _ = filterNW c := filterNW_eq_self (wsFree_filterNW c)

/-- Witness for the amended C3 at the oversized segment `"a b c"` with
`max_size = 2`. -/
theorem ws_level_direct_concat_witness :
    (splitPass 2 0 none ["a b c".toList]).flatten = filterNW "a b c".toList :=
  (ws_level_direct_concat 2 0 "a b c".toList (by decide)).2

/-- C5 counterexample: `" ab "` fits within `max_size`, passes through every
level unchanged and is returned still carrying its leading and trailing
spaces — the returned chunk starts with a whitespace character. -/
theorem chunk_untrimmed_counterexample :
    _chunk_text " ab ".toList 1024 200 = [" ab ".toList]
      ∧ (" ab ".toList).head? = some ' '
      ∧ isWS ' ' = true := by decide

/-- C5 amended: chunks produced by splitting an oversized segment are
trimmed (`strip`-fixed); a segment that already fits within `max_size` is
passed through unchanged and may retain surrounding whitespace.  Hence
every returned chunk either has length ≤ `max_size` or is trimmed, and
every chunk emitted by the packing loop is trimmed. -/
theorem chunk_trimmed_amended (text : List Char) (max_size overlap : Nat) :
    (∀ c ∈ _chunk_text text max_size overlap, c.length ≤ max_size ∨ strip c = c)
      ∧ ∀ adds c, c ∈ packAdds max_size overlap adds → strip c = c := by
  constructor
  · intro c hc
    rw [_chunk_text_eq] at hc
    by_cases h : strip text = []
    · rw [if_pos h] at hc
      simp at hc
    · rw [if_neg h] at hc
      rw [List.mem_filter] at hc
      exact splitPass_bound_strip max_size overlap none _ c hc.1
  · intro adds c hc
    exact packAdds_stripped max_size overlap adds c hc

/-- Witness for the amended C5 at the concrete input `"aa bb cc"`,
`max_size = 5`, `overlap = 0`, chunk `"aabb"`. -/
theorem chunk_trimmed_amended_witness :
    "aabb".toList.length ≤ 5 ∨ strip "aabb".toList = "aabb".toList :=
  (chunk_trimmed_amended "aa bb cc".toList 5 0).1 "aabb".toList (by decide)

/-! ## Lemmas for C4: chunking of structured 2000-character paragraphs -/

theorem infix_mem {sep t : List Char} (hinf : sep <:+: t) {c : Char} (hc : c ∈ sep) :
    c ∈ t :=
  hinf.sublist.subset hc

theorem pySplitAux_no_occ (sep : List Char) :
    ∀ (fuel : Nat) (s : List Char), s.length ≤ fuel → ¬ (sep <:+: s) →
      pySplitAux sep fuel s = [s] := by
  intro fuel
  induction fuel with
  | zero =>
    intro s hs _
    have hnil : s = [] := List.eq_nil_of_length_eq_zero (Nat.le_zero.mp hs)
    subst hnil
    rfl
  | succ n ih =>
    intro s hs hno
    match s with
    | [] => rfl
    | c :: rest =>
      rw [pySplitAux]
      cases hp : sep.isPrefixOf (c :: rest) with
      | true =>
        exfalso
        obtain ⟨t, ht⟩ := isPrefixOf_exists hp
        exact hno ⟨[], t, by rw [ht]; rfl⟩
      | false =>
        simp only [Bool.false_eq_true, if_false]
        have hno' : ¬ (sep <:+: rest) := by
          intro ⟨u, v, huv⟩
          exact hno ⟨c :: u, v, by rw [← huv]; rfl⟩
        rw [ih rest (by simpa using Nat.le_of_succ_le_succ (by simpa using hs)) hno']

theorem pySplit_no_occ {sep s : List Char} (hno : ¬ (sep <:+: s)) :
    pySplit sep s = [s] :=
  pySplitAux_no_occ sep s.length s le_rfl hno

theorem reSplitWSAux_wsFree_self :
    ∀ (fuel : Nat) (s : List Char), s.length ≤ fuel → wsFree s →
      reSplitWSAux fuel s = [s] := by
  intro fuel
  induction fuel with
  | zero =>
    intro s hs _
    have hnil : s = [] := List.eq_nil_of_length_eq_zero (Nat.le_zero.mp hs)
    subst hnil
    rfl
  | succ n ih =>
    intro s hs hws
    match s with
    | [] => rfl
    | c :: rest =>
      rw [reSplitWSAux]
      have hc : isWS c = false := hws c (List.mem_cons_self c rest)
      rw [hc]
      simp only [Bool.false_eq_true, if_false]
      rw [ih rest (by simpa using Nat.le_of_succ_le_succ (by simpa using hs))
        (fun d hd => hws d (List.mem_cons_of_mem c hd))]

theorem reSplitWS_wsFree_self {s : List Char} (hws : wsFree s) : reSplitWS s = [s] :=
  reSplitWSAux_wsFree_self s.length s le_rfl hws

theorem packStep_nil_start (size ov : Nat) (t : List Char) :
    packStep size ov ([], []) t = ([], t) := by
  unfold packStep
  by_cases h : (0 : Nat) + t.length ≤ size
  · simp only [List.length_nil] at h ⊢
    rw [if_pos h]
    rfl
  · simp only [List.length_nil] at h ⊢
    rw [if_neg h]
    simp [ovStartOf_nil]

theorem packAdds_single (size ov : Nat) (t : List Char) :
    packAdds size ov [t] = if strip t = [] then [] else [strip t] := by
  unfold packAdds
  rw [List.foldl_cons, List.foldl_nil, packStep_nil_start]
  dsimp only
  by_cases h : strip t = [] <;> simp [h]

theorem splitPass_single (size ov : Nat) (sep : Option (List Char)) (t : List Char) :
    splitPass size ov sep [t]
      = if t.length ≤ size then [t] else packAdds size ov (levelAdds sep t) := by
  rw [splitPass_eq]
  by_cases h : t.length ≤ size <;> simp [h]

theorem chunkText_of_wsFree (t : List Char) (size ov : Nat) (hne : t ≠ [])
    (hws : wsFree t) : _chunk_text t size ov = [t] := by
  have hstrip : strip t = t := strip_eq_self_of_wsFree hws
  have hnoWS : ∀ sep : List Char, (∃ c, c ∈ sep ∧ isWS c = true) → ¬ (sep <:+: t) := by
    intro sep ⟨c, hcs, hcw⟩ hinf
    have hmem : c ∈ t := infix_mem hinf hcs
    rw [hws c hmem] at hcw
    cases hcw
  have hsepPass : ∀ sep : List Char, (∃ c, c ∈ sep ∧ isWS c = true) →
      splitPass size ov (some sep) [t] = [t] := by
    intro sep hcs
    rw [splitPass_single]
    by_cases h : t.length ≤ size
    · rw [if_pos h]
    · rw [if_neg h]
      simp only [levelAdds]
      rw [pySplit_no_occ (hnoWS sep hcs)]
      show packAdds size ov (addsOf sep [t]) = [t]
      unfold addsOf
      rw [packAdds_single, if_neg (by rw [hstrip]; exact hne), hstrip]
  have hwsPass : splitPass size ov none [t] = [t] := by
    rw [splitPass_single]
    by_cases h : t.length ≤ size
    · rw [if_pos h]
    · rw [if_neg h]
      simp only [levelAdds]
      rw [reSplitWS_wsFree_self hws, packAdds_single, if_neg (by rw [hstrip]; exact hne),
        hstrip]
  rw [_chunk_text_eq, if_neg (by rw [hstrip]; exact hne),
    hsepPass ['\n', '\n'] ⟨'\n', by simp, by decide⟩,
    hsepPass ['\n'] ⟨'\n', by simp, by decide⟩,
    hsepPass ['.', ' '] ⟨' ', by simp, by decide⟩,
    hwsPass]
  rw [List.filter_cons]
  have : (!(strip t).isEmpty) = true := by
    rw [hstrip]
    simp [List.isEmpty_iff, hne]
  rw [this, if_pos (by simp)]
  rfl

/-! ## Claim C4 -/

/-- C4 counterexample: the single-paragraph input of 2000 `'a'` characters
(no paragraph or line break — in fact no whitespace at all) is returned as
ONE chunk of length 2000 by `_chunk_text` with `max_size = 1024`,
`overlap = 200`, not two. -/
theorem two_chunks_counterexample :
    (List.replicate 2000 'a').length = 2000
      ∧ ¬ '\n' ∈ List.replicate 2000 'a'
      ∧ _chunk_text (List.replicate 2000 'a') 1024 200 = [List.replicate 2000 'a']
      ∧ ¬ (_chunk_text (List.replicate 2000 'a') 1024 200).length = 2 := by
  have hws : wsFree (List.replicate 2000 'a') := by
    intro c hc
    rw [List.eq_of_mem_replicate hc]
    decide
  have heq := chunkText_of_wsFree (List.replicate 2000 'a') 1024 200 (by simp) hws
  refine ⟨by simp, ?_, heq, by rw [heq]; simp⟩
  intro hmem
  have h := List.eq_of_mem_replicate hmem
  cases h

theorem sepPass_no_occ (size ov : Nat) (sep t : List Char) (hno : ¬ (sep <:+: t))
    (hstrip : strip t = t) (hne : t ≠ []) :
    splitPass size ov (some sep) [t] = [t] := by
  rw [splitPass_single]
  by_cases h : t.length ≤ size
  · rw [if_pos h]
  · rw [if_neg h]
    simp only [levelAdds]
    rw [pySplit_no_occ hno]
    show packAdds size ov (addsOf sep [t]) = [t]
    unfold addsOf
    rw [packAdds_single, if_neg (by rw [hstrip]; exact hne), hstrip]

theorem reSplitWS_append_space (w : List Char) :
    ∀ (s : List Char), wsFree w → s.dropWhile isWS = s →
      reSplitWS (w ++ ' ' :: s) = w :: reSplitWS s := by
  induction w with
  | nil =>
    intro s _ hs
    unfold reSplitWS
    rw [List.nil_append, List.length_cons, reSplitWSAux]
    rw [show isWS ' ' = true from by decide, if_pos rfl, hs]
  | cons c w' ih =>
    intro s hw hs
    have hc : isWS c = false := hw c (List.mem_cons_self c w')
    show reSplitWSAux ((c :: (w' ++ ' ' :: s)).length) (c :: (w' ++ ' ' :: s))
        = (c :: w') :: reSplitWS s
    rw [List.length_cons, reSplitWSAux, hc]
    simp only [Bool.false_eq_true, if_false]
    have hrec : reSplitWSAux (w' ++ ' ' :: s).length (w' ++ ' ' :: s) = w' :: reSplitWS s :=
      ih s (fun d hd => hw d (List.mem_cons_of_mem c hd)) hs
    rw [hrec]

theorem reSplitWS_rep (w : List Char) (hw : wsFree w) (hwne : w ≠ []) :
    ∀ (k : Nat) (w₀ : List Char), wsFree w₀ →
      reSplitWS (w₀ ++ (List.replicate k (' ' :: w)).flatten) = w₀ :: List.replicate k w := by
  intro k
  induction k with
  | zero =>
    intro w₀ hw0
    have h0 : (List.replicate 0 (' ' :: w)).flatten = ([] : List Char) := rfl
    rw [h0, List.append_nil, reSplitWS_wsFree_self hw0]
    rfl
  | succ k ih =>
    intro w₀ hw0
    rw [List.replicate_succ, List.flatten_cons]
    have hassoc : w₀ ++ ((' ' :: w) ++ (List.replicate k (' ' :: w)).flatten)
        = w₀ ++ ' ' :: (w ++ (List.replicate k (' ' :: w)).flatten) := by simp
    rw [hassoc]
    have hdrop : (w ++ (List.replicate k (' ' :: w)).flatten).dropWhile isWS
        = w ++ (List.replicate k (' ' :: w)).flatten := by
      match w, hwne with
      | c :: w'', _ =>
        rw [List.cons_append, List.dropWhile_cons, if_neg]
        simp [hw c (List.mem_cons_self _ _)]
    rw [reSplitWS_append_space w₀ _ hw0 hdrop, ih w hw, List.replicate_succ]

theorem getLast?_append_flatten_replicate (w : List Char) (hwne : w ≠ []) :
    ∀ (k : Nat) (A : List Char),
      (A ++ (List.replicate (k + 1) w).flatten).getLast? = w.getLast? := by
  intro k
  induction k with
  | zero =>
    intro A
    have h1 : (List.replicate 1 w).flatten = w := by simp
    rw [h1]
    exact List.getLast?_append_of_ne_nil A hwne
  | succ k ih =>
    intro A
    rw [List.replicate_succ, List.flatten_cons, ← List.append_assoc]
    exact ih (A ++ w)

theorem strip_eq_self_of_ends {l : List Char}
    (h1 : ∀ d, l.head? = some d → isWS d = false)
    (h2 : ∀ d, l.getLast? = some d → isWS d = false) : strip l = l := by
  unfold strip
  rw [dropWhile_eq_self_of_head h1,
    dropWhile_eq_self_of_head (fun d hd => h2 d (by rwa [List.head?_reverse] at hd)),
    List.reverse_reverse]

theorem wsFree_replicate_a (n : Nat) : wsFree (List.replicate n 'a') := by
  intro c hc
  rw [List.eq_of_mem_replicate hc]
  decide

/-! ## The concrete 2000-character paragraph `tPara` -/

theorem tPara_chars : ∀ c ∈ tPara, c = 'a' ∨ c = ' ' := by
  intro c hc
  unfold tPara at hc
  rcases List.mem_append.mp hc with h | h
  · left
    have h5 : "aaaaa".toList = List.replicate 5 'a' := by decide
    rw [h5] at h
    exact List.eq_of_mem_replicate h
  · rw [List.mem_flatten] at h
    obtain ⟨x, hx, hcx⟩ := h
    rw [List.eq_of_mem_replicate hx] at hcx
    rcases List.mem_cons.mp hcx with h' | h'
    · right; exact h'
    · left
      have h4 : "aaaa".toList = List.replicate 4 'a' := by decide
      rw [h4] at h'
      exact List.eq_of_mem_replicate h'

theorem tPara_len : tPara.length = 2000 := by
  unfold tPara
  rw [List.length_append]
  have h1 : ("aaaaa".toList).length = 5 := by decide
  have h2 : ((List.replicate 399 (' ' :: "aaaa".toList)).flatten).length = 399 * 5 := by
    simp [List.length_flatten, List.map_replicate, List.sum_replicate]
  rw [h1, h2]

theorem tPara_strip : strip tPara = tPara := by
  apply strip_eq_self_of_ends
  · intro d hd
    have hh : tPara.head? = some 'a' := by decide
    rw [hh] at hd
    simp only [Option.some.injEq] at hd
    rw [← hd]
    decide
  · intro d hd
    have hgl : tPara.getLast? = some 'a' := by
      show ("aaaaa".toList ++ (List.replicate 399 (' ' :: "aaaa".toList)).flatten).getLast?
          = some 'a'
      have h399 : (399 : Nat) = 398 + 1 := by norm_num
      rw [h399, getLast?_append_flatten_replicate (' ' :: "aaaa".toList) (by simp) 398]
      decide
    rw [hgl] at hd
    simp only [Option.some.injEq] at hd
    rw [← hd]
    decide

theorem tPara_ne : tPara ≠ [] := by
  intro h
  have hl := tPara_len
  rw [h] at hl
  simp at hl

theorem tPara_no_nn : ¬ (['\n', '\n'] <:+: tPara) := by
  intro hinf
  have hm : '\n' ∈ tPara := infix_mem hinf (by simp)
  rcases tPara_chars '\n' hm with h | h <;> exact absurd h (by decide)

theorem tPara_no_n : ¬ (['\n'] <:+: tPara) := by
  intro hinf
  have hm : '\n' ∈ tPara := infix_mem hinf (by simp)
  rcases tPara_chars '\n' hm with h | h <;> exact absurd h (by decide)

theorem tPara_no_dot : ¬ (['.', ' '] <:+: tPara) := by
  intro hinf
  have hm : '.' ∈ tPara := infix_mem hinf (by simp)
  rcases tPara_chars '.' hm with h | h <;> exact absurd h (by decide)

theorem tPara_resplit :
    reSplitWS tPara = "aaaaa".toList :: List.replicate 399 "aaaa".toList := by
  show reSplitWS ("aaaaa".toList ++ (List.replicate 399 (' ' :: "aaaa".toList)).flatten)
      = "aaaaa".toList :: List.replicate 399 "aaaa".toList
  exact reSplitWS_rep "aaaa".toList (by decide) (by decide) 399 "aaaaa".toList (by decide)

/-! ## The packing computation for `tPara`, in bounded segments -/

theorem packSeg0 :
    List.foldl (packStep 1024 200) ([], []) ["aaaaa".toList]
      = ([], List.replicate 5 'a') := by decide

theorem packSeg1 :
    List.foldl (packStep 1024 200) (([], List.replicate 5 'a') : List (List Char) × List Char)
      (List.replicate 125 "aaaa".toList) = ([], List.replicate 505 'a') := by decide

theorem packSeg2 :
    List.foldl (packStep 1024 200) (([], List.replicate 505 'a') : List (List Char) × List Char)
      (List.replicate 125 "aaaa".toList) = ([], List.replicate 1005 'a') := by decide

theorem packSeg3 :
    List.foldl (packStep 1024 200) (([], List.replicate 1005 'a') : List (List Char) × List Char)
      (List.replicate 4 "aaaa".toList) = ([], List.replicate 1021 'a') := by decide

theorem packSeg4 :
    List.foldl (packStep 1024 200) (([], List.replicate 1021 'a') : List (List Char) × List Char)
      (List.replicate 1 "aaaa".toList)
      = ([List.replicate 1021 'a'], List.replicate 204 'a') := by decide

theorem packSeg5 :
    List.foldl (packStep 1024 200)
      (([List.replicate 1021 'a'], List.replicate 204 'a') : List (List Char) × List Char)
      (List.replicate 144 "aaaa".toList)
      = ([List.replicate 1021 'a'], List.replicate 780 'a') := by decide

theorem packAdds_tPara :
    packAdds 1024 200 ("aaaaa".toList :: List.replicate 399 "aaaa".toList)
      = [List.replicate 1021 'a', List.replicate 780 'a'] := by
  have hsplit : List.replicate 399 "aaaa".toList
      = List.replicate 125 "aaaa".toList ++ (List.replicate 125 "aaaa".toList
          ++ (List.replicate 4 "aaaa".toList ++ (List.replicate 1 "aaaa".toList
            ++ List.replicate 144 "aaaa".toList))) := by
    rw [← List.replicate_add, ← List.replicate_add, ← List.replicate_add, ← List.replicate_add]
  have hcons : "aaaaa".toList :: List.replicate 399 "aaaa".toList
      = ["aaaaa".toList] ++ List.replicate 399 "aaaa".toList := rfl
  unfold packAdds
  rw [hcons, hsplit, List.foldl_append, List.foldl_append, List.foldl_append,
    List.foldl_append, List.foldl_append, packSeg0, packSeg1, packSeg2, packSeg3,
    packSeg4, packSeg5]
  dsimp only
  have hstrip780 : strip (List.replicate 780 'a') = List.replicate 780 'a' :=
    strip_eq_self_of_wsFree (wsFree_replicate_a 780)
  rw [if_neg (by rw [hstrip780]; simp), hstrip780]
  rfl

theorem wsPass_tPara :
    splitPass 1024 200 none [tPara]
      = [List.replicate 1021 'a', List.replicate 780 'a'] := by
  rw [splitPass_single, if_neg (by rw [tPara_len]; norm_num)]
  simp only [levelAdds]
  rw [tPara_resplit]
  exact packAdds_tPara

/-- C4 amended: the universally quantified claim fails (see the
counterexample), but for a 2000-character single-paragraph input made of
short whitespace-separated words — here one 5-letter word followed by 399
4-letter words — `_chunk_text` with `max_size = 1024`, `overlap = 200`
produces exactly 2 chunks, and the last 200 characters of the first chunk
are a prefix of the second chunk (exactly — no trimming is needed here). -/
theorem two_chunks_amended :
    tPara.length = 2000
      ∧ (¬ '\n' ∈ tPara)
      ∧ _chunk_text tPara 1024 200 = [List.replicate 1021 'a', List.replicate 780 'a']
      ∧ (_chunk_text tPara 1024 200).length = 2
      ∧ (List.replicate 1021 'a').drop (1021 - 200) <+: List.replicate 780 'a' := by
  have hchunk : _chunk_text tPara 1024 200
      = [List.replicate 1021 'a', List.replicate 780 'a'] := by
    rw [_chunk_text_eq, if_neg (by rw [tPara_strip]; exact tPara_ne),
      sepPass_no_occ 1024 200 ['\n', '\n'] tPara tPara_no_nn tPara_strip tPara_ne,
      sepPass_no_occ 1024 200 ['\n'] tPara tPara_no_n tPara_strip tPara_ne,
      sepPass_no_occ 1024 200 ['.', ' '] tPara tPara_no_dot tPara_strip tPara_ne,
      wsPass_tPara]
    have hk1 : strip (List.replicate 1021 'a') = List.replicate 1021 'a' :=
      strip_eq_self_of_wsFree (wsFree_replicate_a 1021)
    have hk2 : strip (List.replicate 780 'a') = List.replicate 780 'a' :=
      strip_eq_self_of_wsFree (wsFree_replicate_a 780)
    rw [List.filter_cons, List.filter_cons, List.filter_nil]
    rw [show (!(strip (List.replicate 1021 'a')).isEmpty) = true by
        rw [hk1]; simp [List.isEmpty_iff],
      show (!(strip (List.replicate 780 'a')).isEmpty) = true by
        rw [hk2]; simp [List.isEmpty_iff]]
    rw [if_pos (by simp), if_pos (by simp)]
  refine ⟨tPara_len, ?_, hchunk, by rw [hchunk]; rfl, ?_⟩
  · intro hm
    rcases tPara_chars '\n' hm with h | h <;> exact absurd h (by decide)
  · refine ⟨List.replicate 580 'a', ?_⟩
    rw [List.drop_replicate, ← List.replicate_add]

/-! ## Claims C6, C7, C8, C9 -/

/-- C6 is violated by the code: `ingest_paths` builds ids as
`f"{base_name}_{idx}"` with `idx` reset to 0 for every file, so two files
with the same stem (`a.txt` and `a.md`) both produce the id `"a_0"` in the
same batch — the ids handed to the single batch-insert are not pairwise
distinct. -/
theorem duplicate_ids_bug :
    (ingest_paths 1024 200 c6Input).calls
        = [⟨["a_0".toList, "a_0".toList], ["hello".toList, "world".toList],
            [⟨some "a.txt".toList, none⟩, ⟨some "a.md".toList, none⟩]⟩]
      ∧ ¬ ∀ call ∈ (ingest_paths 1024 200 c6Input).calls, call.ids.Nodup := by decide

/-- C7: each ingestion invocation performs exactly one batch-insert call
when at least one chunk was accumulated, and none at all — returning
`(0, errors)` — when the accumulated chunk list is empty; for both
`ingest_paths` and `ingest_files_in_memory`. -/
theorem single_batch_insert (chunk_size overlap : Nat) (inputs : List PathInput)
    (entries : List MemEntry) :
    ((pathsAcc chunk_size overlap inputs).docs = [] →
        ingest_paths chunk_size overlap inputs
          = ⟨[], 0, (pathsAcc chunk_size overlap inputs).errors⟩)
      ∧ ((pathsAcc chunk_size overlap inputs).docs ≠ [] →
          (ingest_paths chunk_size overlap inputs).calls.length = 1)
      ∧ ((memAcc chunk_size overlap entries).docs = [] →
          ingest_files_in_memory chunk_size overlap entries
            = ⟨[], 0, (memAcc chunk_size overlap entries).errors⟩)
      ∧ ((memAcc chunk_size overlap entries).docs ≠ [] →
          (ingest_files_in_memory chunk_size overlap entries).calls.length = 1) := by
  refine ⟨?_, ?_, ?_, ?_⟩
  · intro h
    unfold ingest_paths
    rw [if_pos (by simp [List.isEmpty_iff, h])]
  · intro h
    unfold ingest_paths
    rw [if_neg (by simp [List.isEmpty_iff, h])]
    rfl
  · intro h
    unfold ingest_files_in_memory
    rw [if_pos (by simp [List.isEmpty_iff, h])]
  · intro h
    unfold ingest_files_in_memory
    rw [if_neg (by simp [List.isEmpty_iff, h])]
    rfl

/-- Witness for C7: an empty batch performs no insert call and returns
`(0, [])`; a batch with two readable files performs exactly one call. -/
theorem single_batch_insert_witness :
    ingest_paths 1024 200 [] = ⟨[], 0, (pathsAcc 1024 200 []).errors⟩
      ∧ (ingest_paths 1024 200 c6Input).calls.length = 1 :=
  ⟨(single_batch_insert 1024 200 [] []).1 (by decide),
    (single_batch_insert 1024 200 c6Input []).2.1 (by decide)⟩

/-- C8: when the store's count is zero, `retrieve` returns the empty
sequence and performs no query call; when the count is positive it performs
exactly one query call requesting `min(top_k, count)` results and returns
the collaborator's documents, metadatas and distances zipped positionally,
in the collaborator's order (with `d0 = 0.0` distances substituted when the
collaborator returns no distance list). -/
theorem retrieve_contract {δ : Type} (d0 : δ) (store : Store δ) (q : List Char)
    (top_k : Nat) :
    (store.count = 0 → retrieve d0 store q top_k = ([], []))
      ∧ (store.count ≠ 0 →
          (retrieve d0 store q top_k).1 = [min top_k store.count]
            ∧ (retrieve d0 store q top_k).2
                = ((store.query q (min top_k store.count)).docs.getD []).zip
                    (((store.query q (min top_k store.count)).metas.getD []).zip
                      (match (store.query q (min top_k store.count)).dists with
                        | some ds => ds
                        | none =>
                          List.replicate
                            ((store.query q (min top_k store.count)).docs.getD []).length
                            d0))) := by
  constructor
  · intro h
    unfold retrieve
    rw [if_pos h]
  · intro h
    unfold retrieve
    rw [if_neg h]
    exact ⟨rfl, rfl⟩

/-- Witness for C8: an empty store yields `([], [])` with no query call; a
3-chunk store queried with `top_k = 5` performs one query with
`n_results = min 5 3`. -/
theorem retrieve_contract_witness :
    retrieve (0 : Int) ⟨0, fun _ _ => ⟨none, none, none⟩⟩ "q".toList 5 = ([], [])
      ∧ (retrieve (0 : Int) c8Store "q".toList 5).1 = [min 5 3] :=
  ⟨(retrieve_contract (0 : Int) ⟨0, fun _ _ => ⟨none, none, none⟩⟩ "q".toList 5).1 rfl,
    ((retrieve_contract (0 : Int) c8Store "q".toList 5).2 (by decide)).1⟩

/-- C9: for every question `q`, `build_prompt q []` contains the literal
substring `"general knowledge"` and ends with `"Question: "` followed
immediately by `q`. -/
theorem fallback_prompt_contract {δ : Type} (q : List Char) :
    ("general knowledge".toList <:+: build_prompt q ([] : List (List Char × Meta × δ)))
      ∧ (("Question: ".toList ++ q) <:+ build_prompt q ([] : List (List Char × Meta × δ))) := by
  have hempty : build_prompt q ([] : List (List Char × Meta × δ)) = fallbackPrompt ++ q := by
    unfold build_prompt
    rw [if_pos (by rfl)]
  constructor
  · rw [hempty]
    have hdecomp : fallbackPrompt
        = "No relevant documents were found. Answer based on your ".toList
          ++ "general knowledge".toList
          ++ " and say you have no document context.\n\nQuestion: ".toList := by decide
    exact ⟨"No relevant documents were found. Answer based on your ".toList,
      " and say you have no document context.\n\nQuestion: ".toList ++ q,
      by rw [hdecomp]; simp [List.append_assoc]⟩
  · rw [hempty]
    have hdecomp2 : fallbackPrompt
        = ("No relevant documents were found. Answer based on your general knowledge "
            ++ "and say you have no document context.\n\n").toList
          ++ "Question: ".toList := by decide
    exact ⟨("No relevant documents were found. Answer based on your general knowledge "
        ++ "and say you have no document context.\n\n").toList,
      by rw [hdecomp2]; simp [List.append_assoc]⟩

/-! ## Claim C10: alignment of the three accumulated lists

The chunk loops of both ingestion functions are related to their
triple-producing companions (`fileTriplesFrom` / `memTriplesFrom`): the
three parallel lists are exactly the three projections of the per-chunk
triples, so the `i`-th id, document and metadata all come from the same
chunk of the same unit. -/

theorem chunkFold_rel (mkid : Nat → List Char) (m : Meta) :
    ∀ (chs : List (List Char)) (pa : BatchAcc × Nat)
      (pt : List (List Char × List Char × Meta) × Nat),
      pa.1.ids = pt.1.map (fun t => t.1) →
      pa.1.docs = pt.1.map (fun t => t.2.1) →
      pa.1.metas = pt.1.map (fun t => t.2.2) →
      pa.2 = pt.2 →
      ((chs.foldl (fun q ch =>
          ({ q.1 with
              ids := q.1.ids ++ [mkid q.2],
              docs := q.1.docs ++ [ch],
              metas := q.1.metas ++ [m] }, q.2 + 1)) pa).1.ids
          = (chs.foldl (fun q ch => (q.1 ++ [(mkid q.2, ch, m)], q.2 + 1)) pt).1.map
              (fun t => t.1))
        ∧ ((chs.foldl (fun q ch =>
            ({ q.1 with
                ids := q.1.ids ++ [mkid q.2],
                docs := q.1.docs ++ [ch],
                metas := q.1.metas ++ [m] }, q.2 + 1)) pa).1.docs
            = (chs.foldl (fun q ch => (q.1 ++ [(mkid q.2, ch, m)], q.2 + 1)) pt).1.map
                (fun t => t.2.1))
        ∧ ((chs.foldl (fun q ch =>
            ({ q.1 with
                ids := q.1.ids ++ [mkid q.2],
                docs := q.1.docs ++ [ch],
                metas := q.1.metas ++ [m] }, q.2 + 1)) pa).1.metas
            = (chs.foldl (fun q ch => (q.1 ++ [(mkid q.2, ch, m)], q.2 + 1)) pt).1.map
                (fun t => t.2.2))
        ∧ ((chs.foldl (fun q ch =>
            ({ q.1 with
                ids := q.1.ids ++ [mkid q.2],
                docs := q.1.docs ++ [ch],
                metas := q.1.metas ++ [m] }, q.2 + 1)) pa).1.errors = pa.1.errors)
        ∧ ((chs.foldl (fun q ch =>
            ({ q.1 with
                ids := q.1.ids ++ [mkid q.2],
                docs := q.1.docs ++ [ch],
                metas := q.1.metas ++ [m] }, q.2 + 1)) pa).2
            = (chs.foldl (fun q ch => (q.1 ++ [(mkid q.2, ch, m)], q.2 + 1)) pt).2) := by
  intro chs
  induction chs with
  | nil =>
    intro pa pt h1 h2 h3 hi
    exact ⟨h1, h2, h3, rfl, hi⟩
  | cons ch chs ih =>
    intro pa pt h1 h2 h3 hi
    rw [List.foldl_cons, List.foldl_cons]
    exact ih _ _ (by simp [h1, hi]) (by simp [h2]) (by simp [h3]) (by simp [hi])

theorem addFileChunks_rel (cs ov : Nat) (stem : List Char) :
    ∀ (units : List (List Char × Meta)) (pa : BatchAcc × Nat)
      (pt : List (List Char × List Char × Meta) × Nat),
      pa.1.ids = pt.1.map (fun t => t.1) →
      pa.1.docs = pt.1.map (fun t => t.2.1) →
      pa.1.metas = pt.1.map (fun t => t.2.2) →
      pa.2 = pt.2 →
      ((addFileChunks cs ov stem units pa).1.ids
          = (fileTriplesFrom cs ov stem units pt).1.map (fun t => t.1))
        ∧ ((addFileChunks cs ov stem units pa).1.docs
            = (fileTriplesFrom cs ov stem units pt).1.map (fun t => t.2.1))
        ∧ ((addFileChunks cs ov stem units pa).1.metas
            = (fileTriplesFrom cs ov stem units pt).1.map (fun t => t.2.2)) := by
  intro units
  induction units with
  | nil =>
    intro pa pt h1 h2 h3 _
    exact ⟨h1, h2, h3⟩
  | cons u us ih =>
    intro pa pt h1 h2 h3 hi
    unfold addFileChunks fileTriplesFrom
    rw [List.foldl_cons, List.foldl_cons]
    obtain ⟨g1, g2, g3, _, g5⟩ :=
      chunkFold_rel (fun n => mkPathId stem n) u.2 (_chunk_text u.1 cs ov) pa pt h1 h2 h3 hi
    exact ih _ _ g1 g2 g3 g5

theorem addMemChunks_rel (cs ov : Nat) (e : MemEntry) :
    ∀ (units : List (List Char × Meta)) (pa : BatchAcc × Nat)
      (pt : List (List Char × List Char × Meta) × Nat),
      pa.1.ids = pt.1.map (fun t => t.1) →
      pa.1.docs = pt.1.map (fun t => t.2.1) →
      pa.1.metas = pt.1.map (fun t => t.2.2) →
      pa.2 = pt.2 →
      ((addMemChunks cs ov e units pa).1.ids
          = (memTriplesFrom cs ov e units pt).1.map (fun t => t.1))
        ∧ ((addMemChunks cs ov e units pa).1.docs
            = (memTriplesFrom cs ov e units pt).1.map (fun t => t.2.1))
        ∧ ((addMemChunks cs ov e units pa).1.metas
            = (memTriplesFrom cs ov e units pt).1.map (fun t => t.2.2)) := by
  intro units
  induction units with
  | nil =>
    intro pa pt h1 h2 h3 _
    exact ⟨h1, h2, h3⟩
  | cons u us ih =>
    intro pa pt h1 h2 h3 hi
    unfold addMemChunks memTriplesFrom
    rw [List.foldl_cons, List.foldl_cons]
    obtain ⟨g1, g2, g3, _, g5⟩ :=
      chunkFold_rel (fun n => mkMemId e.stem n e.rawId)
        { u.2 with source := some e.displayName } (_chunk_text u.1 cs ov) pa pt h1 h2 h3 hi
    exact ih _ _ g1 g2 g3 g5

theorem add_file_rel (cs ov : Nat) (f : FileEntry) (b : BatchAcc)
    (ts : List (List Char × List Char × Meta))
    (h1 : b.ids = ts.map (fun t => t.1)) (h2 : b.docs = ts.map (fun t => t.2.1))
    (h3 : b.metas = ts.map (fun t => t.2.2)) :
    ((add_file cs ov f b).ids
        = (if f.units.isEmpty then ts
            else (fileTriplesFrom cs ov f.stem f.units (ts, 0)).1).map (fun t => t.1))
      ∧ ((add_file cs ov f b).docs
          = (if f.units.isEmpty then ts
              else (fileTriplesFrom cs ov f.stem f.units (ts, 0)).1).map (fun t => t.2.1))
      ∧ ((add_file cs ov f b).metas
          = (if f.units.isEmpty then ts
              else (fileTriplesFrom cs ov f.stem f.units (ts, 0)).1).map (fun t => t.2.2)) := by
  unfold add_file
  by_cases hu : f.units.isEmpty = true
  · rw [if_pos hu, if_pos hu]
    by_cases he : recognizedErrExt f.ext = true
    · rw [if_pos he]
      exact ⟨h1, h2, h3⟩
    · rw [if_neg he]
      exact ⟨h1, h2, h3⟩
  · rw [if_neg hu, if_neg hu]
    exact addFileChunks_rel cs ov f.stem f.units (b, 0) (ts, 0) h1 h2 h3 rfl

theorem dirFold_rel (cs ov : Nat) :
    ∀ (es : List FileEntry) (b : BatchAcc) (ts : List (List Char × List Char × Meta)),
      b.ids = ts.map (fun t => t.1) →
      b.docs = ts.map (fun t => t.2.1) →
      b.metas = ts.map (fun t => t.2.2) →
      ((es.foldl (fun a f => add_file cs ov f a) b).ids
          = (es.foldl
              (fun t f =>
                if f.units.isEmpty then t
                else (fileTriplesFrom cs ov f.stem f.units (t, 0)).1) ts).map
              (fun t => t.1))
        ∧ ((es.foldl (fun a f => add_file cs ov f a) b).docs
            = (es.foldl
                (fun t f =>
                  if f.units.isEmpty then t
                  else (fileTriplesFrom cs ov f.stem f.units (t, 0)).1) ts).map
                (fun t => t.2.1))
        ∧ ((es.foldl (fun a f => add_file cs ov f a) b).metas
            = (es.foldl
                (fun t f =>
                  if f.units.isEmpty then t
                  else (fileTriplesFrom cs ov f.stem f.units (t, 0)).1) ts).map
                (fun t => t.2.2)) := by
  intro es
  induction es with
  | nil =>
    intro b ts h1 h2 h3
    exact ⟨h1, h2, h3⟩
  | cons f fs ih =>
    intro b ts h1 h2 h3
    rw [List.foldl_cons, List.foldl_cons]
    obtain ⟨g1, g2, g3⟩ := add_file_rel cs ov f b ts h1 h2 h3
    exact ih _ _ g1 g2 g3

theorem pathsAcc_triples (cs ov : Nat) (inputs : List PathInput) :
    (pathsAcc cs ov inputs).ids = (pathsTriples cs ov inputs).map (fun t => t.1)
      ∧ (pathsAcc cs ov inputs).docs = (pathsTriples cs ov inputs).map (fun t => t.2.1)
      ∧ (pathsAcc cs ov inputs).metas = (pathsTriples cs ov inputs).map (fun t => t.2.2) := by
  unfold pathsAcc pathsTriples
  generalize hb : emptyBatch = b
  have h1 : b.ids = ([] : List (List Char × List Char × Meta)).map (fun t => t.1) := by
    rw [← hb]; rfl
  have h2 : b.docs = ([] : List (List Char × List Char × Meta)).map (fun t => t.2.1) := by
    rw [← hb]; rfl
  have h3 : b.metas = ([] : List (List Char × List Char × Meta)).map (fun t => t.2.2) := by
    rw [← hb]; rfl
  clear hb
  generalize ([] : List (List Char × List Char × Meta)) = ts at h1 h2 h3 ⊢
  induction inputs generalizing b ts with
  | nil => exact ⟨h1, h2, h3⟩
  | cons i is ih =>
    rw [List.foldl_cons, List.foldl_cons]
    match i with
    | PathInput.notFound name =>
      exact ih _ _ h1 h2 h3
    | PathInput.file f =>
      obtain ⟨g1, g2, g3⟩ := add_file_rel cs ov f b ts h1 h2 h3
      exact ih _ _ g1 g2 g3
    | PathInput.dir es =>
      obtain ⟨g1, g2, g3⟩ := dirFold_rel cs ov es b ts h1 h2 h3
      exact ih _ _ g1 g2 g3

theorem memAcc_triples (cs ov : Nat) (entries : List MemEntry) :
    (memAcc cs ov entries).ids = (memTriples cs ov entries).map (fun t => t.1)
      ∧ (memAcc cs ov entries).docs = (memTriples cs ov entries).map (fun t => t.2.1)
      ∧ (memAcc cs ov entries).metas = (memTriples cs ov entries).map (fun t => t.2.2) := by
  unfold memAcc memTriples
  generalize hb : emptyBatch = b
  have h1 : b.ids = ([] : List (List Char × List Char × Meta)).map (fun t => t.1) := by
    rw [← hb]; rfl
  have h2 : b.docs = ([] : List (List Char × List Char × Meta)).map (fun t => t.2.1) := by
    rw [← hb]; rfl
  have h3 : b.metas = ([] : List (List Char × List Char × Meta)).map (fun t => t.2.2) := by
    rw [← hb]; rfl
  clear hb
  generalize ([] : List (List Char × List Char × Meta)) = ts at h1 h2 h3 ⊢
  induction entries generalizing b ts with
  | nil => exact ⟨h1, h2, h3⟩
  | cons e es ih =>
    obtain ⟨dn, stem, raw, load⟩ := e
    cases load with
    | fail m =>
      rw [List.foldl_cons, List.foldl_cons]
      exact ih _ _ h1 h2 h3
    | ok units =>
      simp only [List.foldl_cons]
      by_cases hu : units.isEmpty = true
      · rw [if_pos hu, if_pos hu]
        exact ih _ _ h1 h2 h3
      · rw [if_neg hu, if_neg hu]
        obtain ⟨g1, g2, g3⟩ :=
          addMemChunks_rel cs ov ⟨dn, stem, raw, MemLoad.ok units⟩ units (b, 0) (ts, 0)
            h1 h2 h3 rfl
        exact ih _ _ g1 g2 g3

/-- C10: in every ingestion invocation that reaches the batch-insert, the
ids, documents and metadatas handed to the insert call are the three
positional projections of one per-chunk triple sequence (so the `i`-th id,
chunk text and metadata all come from the same chunk of the same unit),
the three sequences have equal length, and the returned `chunks_added`
equals that common length; for both `ingest_paths` and
`ingest_files_in_memory`. -/
theorem insert_alignment (chunk_size overlap : Nat) (inputs : List PathInput)
    (entries : List MemEntry) :
    (∀ call ∈ (ingest_paths chunk_size overlap inputs).calls,
        call.ids = (pathsTriples chunk_size overlap inputs).map (fun t => t.1)
          ∧ call.docs = (pathsTriples chunk_size overlap inputs).map (fun t => t.2.1)
          ∧ call.metas = (pathsTriples chunk_size overlap inputs).map (fun t => t.2.2)
          ∧ call.ids.length = call.docs.length
          ∧ call.docs.length = call.metas.length
          ∧ (ingest_paths chunk_size overlap inputs).added = call.ids.length)
      ∧ (∀ call ∈ (ingest_files_in_memory chunk_size overlap entries).calls,
          call.ids = (memTriples chunk_size overlap entries).map (fun t => t.1)
            ∧ call.docs = (memTriples chunk_size overlap entries).map (fun t => t.2.1)
            ∧ call.metas = (memTriples chunk_size overlap entries).map (fun t => t.2.2)
            ∧ call.ids.length = call.docs.length
            ∧ call.docs.length = call.metas.length
            ∧ (ingest_files_in_memory chunk_size overlap entries).added = call.ids.length) := by
  obtain ⟨p1, p2, p3⟩ := pathsAcc_triples chunk_size overlap inputs
  obtain ⟨m1, m2, m3⟩ := memAcc_triples chunk_size overlap entries
  constructor
  · intro call hcall
    unfold ingest_paths at hcall ⊢
    by_cases h : (pathsAcc chunk_size overlap inputs).docs.isEmpty = true
    · rw [if_pos h] at hcall
      simp at hcall
    · rw [if_neg h] at hcall ⊢
      simp only [List.mem_singleton] at hcall
      subst hcall
      refine ⟨p1, p2, p3, ?_, ?_, ?_⟩
      · simp only [p1, p2, List.length_map]
      · simp only [p2, p3, List.length_map]
      · rfl
  · intro call hcall
    unfold ingest_files_in_memory at hcall ⊢
    by_cases h : (memAcc chunk_size overlap entries).docs.isEmpty = true
    · rw [if_pos h] at hcall
      simp at hcall
    · rw [if_neg h] at hcall ⊢
      simp only [List.mem_singleton] at hcall
      subst hcall
      refine ⟨m1, m2, m3, ?_, ?_, ?_⟩
      · simp only [m1, m2, List.length_map]
      · simp only [m2, m3, List.length_map]
      · simp only [m1, m2, List.length_map]

/-- Witness for C10 at the concrete two-file batch `c6Input`. -/
theorem insert_alignment_witness :
    (⟨["a_0".toList, "a_0".toList], ["hello".toList, "world".toList],
        [⟨some "a.txt".toList, none⟩, ⟨some "a.md".toList, none⟩]⟩ : InsertCall).ids
        = (pathsTriples 1024 200 c6Input).map (fun t => t.1)
      ∧ (⟨["a_0".toList, "a_0".toList], ["hello".toList, "world".toList],
          [⟨some "a.txt".toList, none⟩, ⟨some "a.md".toList, none⟩]⟩ : InsertCall).docs
          = (pathsTriples 1024 200 c6Input).map (fun t => t.2.1)
      ∧ (⟨["a_0".toList, "a_0".toList], ["hello".toList, "world".toList],
          [⟨some "a.txt".toList, none⟩, ⟨some "a.md".toList, none⟩]⟩ : InsertCall).metas
          = (pathsTriples 1024 200 c6Input).map (fun t => t.2.2)
      ∧ (⟨["a_0".toList, "a_0".toList], ["hello".toList, "world".toList],
          [⟨some "a.txt".toList, none⟩, ⟨some "a.md".toList, none⟩]⟩ : InsertCall).ids.length
          = (⟨["a_0".toList, "a_0".toList], ["hello".toList, "world".toList],
              [⟨some "a.txt".toList, none⟩, ⟨some "a.md".toList, none⟩]⟩ : InsertCall).docs.length
      ∧ (⟨["a_0".toList, "a_0".toList], ["hello".toList, "world".toList],
          [⟨some "a.txt".toList, none⟩, ⟨some "a.md".toList, none⟩]⟩ : InsertCall).docs.length
          = (⟨["a_0".toList, "a_0".toList], ["hello".toList, "world".toList],
              [⟨some "a.txt".toList, none⟩, ⟨some "a.md".toList, none⟩]⟩ : InsertCall).metas.length
      ∧ (ingest_paths 1024 200 c6Input).added
          = (⟨["a_0".toList, "a_0".toList], ["hello".toList, "world".toList],
              [⟨some "a.txt".toList, none⟩, ⟨some "a.md".toList, none⟩]⟩ : InsertCall).ids.length :=
  (insert_alignment 1024 200 c6Input []).1
    ⟨["a_0".toList, "a_0".toList], ["hello".toList, "world".toList],
      [⟨some "a.txt".toList, none⟩, ⟨some "a.md".toList, none⟩]⟩ (by decide)
